import Mathlib

/-!
# vroom: the delimited-file offset index and the logical parser

A shallow embedding of `src/index.cc` (`find_next_newline`, the constructor
`index::index`, `index::get`) and of `src/vroom_lgl.h` (`isTrue`, `isFalse`,
`parse_logical`).

* The memory-mapped file `mmap_` is a `List Char`, one `Char` per byte.
* `size_t` values are `Nat`, with `% 2 ^ 64` where the C++ arithmetic can wrap.
* `int` values are `Int`; the conversions between `size_t` and `int` are
  `to_int` and `to_size_t`.
* An operation whose C++ behaviour is undefined (a read outside the mapping or
  past the end of a `std::vector`, an integer division by zero) yields `none`,
  and so does the constructor when `reserve` throws: no index is constructed.
* `index::index_region` (`index.h`) and `parallel_for` (`parallel.h`) are not
  among the sources; they are modelled from the specification.
-/

set_option linter.dupNamespace false

namespace vroom

/-! ## Machine integers -/

/-- Number of values of a 64-bit `size_t`. -/
def SIZE_MOD : Nat := 2 ^ 64

/-- Conversion of a `size_t` to a 32-bit signed `int` (as when `parallel_for`
calls the lambda `[&](int start, int end, int id)`, or in `end = find_next_newline(..)`):
the value is reduced modulo `2 ^ 32` into `[-2 ^ 31, 2 ^ 31)`. -/
def to_int (n : Nat) : Int :=
  if n % 2 ^ 32 < 2 ^ 31 then ((n % 2 ^ 32 : Nat) : Int) else ((n % 2 ^ 32 : Nat) : Int) - 2 ^ 32

/-- Conversion of an `int` to `size_t` (as when an `int` is passed to the
`size_t start` parameter of `find_next_newline` or `index_region`): reduction
modulo `2 ^ 64`. -/
def to_size_t (i : Int) : Nat := (i % 2 ^ 64).toNat

/-! ## `find_next_newline` (index.cc, lines 25-33) -/

/-- The scan of `memchr`: the bytes still to read, how many of them may be
read, and the distance `k` already covered. -/
def memchr_scan (c : Char) : List Char → Nat → Nat → Option Nat
  | [], _, _ => none
  | _ :: _, 0, _ => none
  | b :: bs, n + 1, k => if b = c then some k else memchr_scan c bs n (k + 1)

/-- The libc `memchr(begin, c, n)`, where the first argument lists the bytes
that follow `begin` in the mapping: the distance from `begin` to the first
byte equal to `c` among the first `n` bytes, or `none` (the null pointer). -/
def memchr (s : List Char) (c : Char) (n : Nat) : Option Nat := memchr_scan c s n 0

/-- The count `mmap_.size() - start` handed to `memchr`, in `size_t` arithmetic. -/
def memchr_count (size start : Nat) : Nat := (size + SIZE_MOD - start % SIZE_MOD) % SIZE_MOD

/-- `find_next_newline(mmap_, start)`: `begin = mmap_.data() + start`, then
`memchr(begin, '\n', mmap_.size() - start)`; `start` when the result is null,
else `res - mmap_.data()`. For `start > mmap_.size()` the pointer `begin` lies
outside the mapping and the count has wrapped around: the read is undefined,
`none`. -/
def find_next_newline (mmap_ : List Char) (start : Nat) : Option Nat :=
  if mmap_.length < start then none
  else
    match memchr (mmap_.drop start) '\n' (memchr_count mmap_.length start) with
    | none => some start
    | some k => some (start + k)

/-! ## `index_region` and `parallel_for` (declared in `index.h` and `parallel.h`) -/

/-- Modelled from the spec: the loop of `index::index_region`, whose
definition is in `index.h`, a file of the repository that is not among the
sources. Spec, RegionScanner: it "walks bytes `[start, end)`, recording the
offset immediately after each delimiter and each record separator
encountered", and it establishes `columns` as "the number of
delimiter-offsets recorded before the first record separator in region 0". The
arguments are the bytes still to walk, the offset `i` of the first of them,
the destination vector and the shared `columns_`. -/
def index_region_loop (delim : Char) (id : Nat) :
    List Char → Nat → List Nat → Nat → List Nat × Nat
  | [], _, destination, columns_ => (destination, columns_)
  | c :: cs, i, destination, columns_ =>
      if c = '\n' then
        index_region_loop delim id cs (i + 1) (destination ++ [i + 1])
          (if id = 0 ∧ columns_ = 0 then destination.length else columns_)
      else if c = delim then
        index_region_loop delim id cs (i + 1) (destination ++ [i + 1]) columns_
      else
        index_region_loop delim id cs (i + 1) destination columns_

/-- Modelled from the spec: `index::index_region(source, destination, delim,
start, end, id)` of `index.h` (not among the sources), the walk of
`index_region_loop` over the bytes `[start, end)` of `source`. The spec's
remark on a file that lacks a final record separator is not modelled: the
properties of whole-file indexes below are asserted only for files that end
with a record separator. The mapping is read without bounds checks (spec,
MappedFile: "out-of-range access is undefined behavior"): a walk that reaches
past the end of `source` is `none`. -/
def index_region (source : List Char) (destination : List Nat) (columns_ : Nat)
    (delim : Char) (start end_ id : Nat) : Option (List Nat × Nat) :=
  if start < end_ ∧ source.length < end_ then none
  else
    some (index_region_loop delim id ((source.drop start).take (end_ - start)) start
      destination columns_)

/-- Modelled from the spec: the spans that `parallel_for` (of `parallel.h`, not
among the sources) hands to its functor. Spec, ParallelIndexer: it "splits the
byte range `[0, file_size)` into `num_threads` contiguous, roughly-equal-sized
spans", "one per worker, keeping worker index order". Worker `i` gets
`[i * b, (i + 1) * b)` with `b = nb_elements / nb_threads`, and the last worker
also gets the remainder. -/
def parallel_for_spans (nb_elements nb_threads : Nat) : List (Nat × Nat) :=
  (List.range nb_threads).map fun i =>
    (i * (nb_elements / nb_threads),
      if i + 1 = nb_threads then nb_elements else (i + 1) * (nb_elements / nb_threads))

/-- The spans `spans` are contiguous, in worker order, from offset `a` to
offset `b`: each starts where the previous one ends and none is reversed. -/
def contiguous : Nat → List (Nat × Nat) → Nat → Bool
  | a, [], b => decide (a = b)
  | a, (s, e) :: rest, b => decide (s = a) && decide (s ≤ e) && contiguous e rest b

/-! ## The constructor `index::index` (index.cc, lines 35-122) -/

/-- The region that the lambda of `index::index` scans for worker `id` with
the naive span `[start, end)` (index.cc, lines 65-73): the span travels
through the `int` parameters, worker 0 keeps its start and moves its end to
`find_next_newline(mmap_, end)`, every other worker moves both. The result is
the pair of `size_t` values passed on to `index_region`, or `none` when a call
of `find_next_newline` is undefined. -/
def aligned_region (mmap_ : List Char) (start end_ id : Nat) : Option (Nat × Nat) :=
  let start : Int := to_int start
  let end_ : Int := to_int end_
  let id : Int := to_int id
  if id = 0 then
    (find_next_newline mmap_ (to_size_t end_)).map fun e =>
      let end_ : Int := to_int e
      (to_size_t start, to_size_t end_)
  else
    (find_next_newline mmap_ (to_size_t start)).bind fun s =>
      (find_next_newline mmap_ (to_size_t end_)).map fun e =>
        let start : Int := to_int s
        let end_ : Int := to_int e
        (to_size_t start, to_size_t end_)

/-- The lambda passed to `parallel_for` (index.cc, lines 65-76), for the worker
`id` with naive span `[start, end)`: worker 0 first pushes offset `0`; the
region is aligned, then `index_region` fills `values[id]`. Returns `values[id]`
and the shared `columns_`. -/
def worker (mmap_ : List Char) (delim : Char) (columns_ : Nat) (start end_ id : Nat) :
    Option (List Nat × Nat) :=
  (aligned_region mmap_ start end_ id).bind fun r =>
    index_region mmap_ (if to_int id = 0 then [0] else []) columns_ delim r.1 r.2
      (to_size_t (to_int id))

/-- The workers of `parallel_for`, run in worker order from worker `id` on:
the vector `values` and the final `columns_`. The workers share no state but
`columns_`, which only worker 0 writes. Undefined when a worker is. -/
def run_workers (mmap_ : List Char) (delim : Char) :
    List (Nat × Nat) → Nat → Nat → Option (List (List Nat) × Nat)
  | [], _, columns_ => some ([], columns_)
  | (start, end_) :: rest, id, columns_ =>
      (worker mmap_ delim columns_ start end_ id).bind fun w =>
        (run_workers mmap_ delim rest (id + 1) w.2).map fun r => (w.1 :: r.1, r.2)

/-- The `total_size` of index.cc, lines 80-90: `std::accumulate` over `values`
from the `int` literal `0`, so the accumulator is an `int`; each step converts
it to the `size_t sum` of the lambda, adds `v.size()` and converts the result
back to `int`. -/
def total_size (values : List (List Nat)) : Int :=
  values.foldl (fun (sum : Int) v => to_int ((to_size_t sum + v.length) % SIZE_MOD)) 0

/-- The `max_size()` of a `std::vector<size_t>` with 64-bit pointers
(libstdc++: `PTRDIFF_MAX / sizeof(size_t)`). -/
def MAX_SIZE : Nat := (2 ^ 63 - 1) / 8

/-- The class `vroom::index`, without `filename_`. -/
structure index where
  /-- The mapped file. -/
  mmap_ : List Char
  /-- The merged offsets. -/
  idx_ : List Nat
  /-- Whether the first record is a header. -/
  has_header_ : Bool
  /-- Fields per record. -/
  columns_ : Nat
  /-- Records after the header. -/
  rows_ : Nat
deriving DecidableEq, Repr

/-- The constructor after `parallel_for` has fixed the naive spans
(index.cc, lines 61-110): run the workers; `idx_.reserve(total_size)` with the
`int total_size` converted to `size_t`, which throws `std::length_error` above
`max_size()` (`none`); append the vectors of `values` to `idx_` in order;
`rows_ = idx_.size() / columns_`, where the division by `columns_ == 0` is
undefined (`none`); and `--rows_` with a header. -/
def index.build (mmap_ : List Char) (delim : Char) (has_header : Bool)
    (spans : List (Nat × Nat)) : Option index :=
  match run_workers mmap_ delim spans 0 0 with
  | none => none
  | some r =>
    if MAX_SIZE < to_size_t (total_size r.1) then none
    else
      let idx_ := r.1.flatten
      let columns_ := r.2
      if columns_ = 0 then none
      else
        let rows_ := idx_.length / columns_
        some {
          mmap_ := mmap_
          idx_ := idx_
          has_header_ := has_header
          columns_ := columns_
          rows_ := if has_header then (rows_ + SIZE_MOD - 1) % SIZE_MOD else rows_ }

/-- The constructor `index::index(filename, delim, has_header, skip,
num_threads)` on the mapped bytes of the file: fewer than 32768 bytes force one
thread; `skip` is not used. -/
def index.index (mmap_ : List Char) (delim : Char) (has_header : Bool) (skip : Nat)
    (num_threads : Nat) : Option index :=
  let _ := skip
  let file_size := mmap_.length
  let num_threads := if file_size < 32768 then 1 else num_threads
  index.build mmap_ delim has_header (parallel_for_spans file_size num_threads)

/-- The method `num_rows()`, the spec's `rows()`. -/
def index.num_rows (x : vroom.index) : Nat := x.rows_

/-- The method `num_columns()`, the spec's `columns()`. -/
def index.num_columns (x : vroom.index) : Nat := x.columns_

/-! ## `index::get` (index.cc, lines 124-130) -/

/-- The struct `cell`: two pointers into the mapping, as offsets from
`mmap_.data()`. -/
structure cell where
  /-- Offset of the first byte. -/
  begin_ : Nat
  /-- Offset one past the last byte. -/
  end_ : Nat
deriving DecidableEq, Repr

/-- `index::get(row, col)`: `i = (row + has_header_) * columns_ + col`,
`cur_loc = idx_[i]`, `next_loc = idx_[i + 1] - 1`. A read outside `idx_` is
undefined: `none`. -/
def index.get (x : vroom.index) (row col : Nat) : Option cell :=
  let i := ((row + (if x.has_header_ then 1 else 0)) * x.columns_ + col) % SIZE_MOD
  match x.idx_[i]?, x.idx_[(i + 1) % SIZE_MOD]? with
  | some cur_loc, some v => some { begin_ := cur_loc, end_ := (v + SIZE_MOD - 1) % SIZE_MOD }
  | _, _ => none

/-- The bytes of the mapping that a cell spans, `[begin, end)`. -/
def cell.bytes (mmap_ : List Char) (c : cell) : List Char :=
  (mmap_.drop c.begin_).take (c.end_ - c.begin_)

/-! ## Well-formed delimited files -/

/-- The bytes of one record: its fields separated by `delim`, then the record
separator. -/
def encode_record (delim : Char) : List (List Char) → List Char
  | [] => ['\n']
  | [f] => f ++ ['\n']
  | f :: g :: fs => f ++ delim :: encode_record delim (g :: fs)

/-- The bytes of a file: its records one after the other. -/
def encode_file (delim : Char) (records : List (List (List Char))) : List Char :=
  (records.map (encode_record delim)).flatten

/-- A field holds neither the delimiter nor the record separator. -/
def clean_field (delim : Char) (f : List Char) : Bool :=
  f.all fun b => decide (b ≠ delim) && decide (b ≠ '\n')

/-- Every record has `C` fields, `C ≥ 1`, and every field is clean. -/
def well_formed (delim : Char) (C : Nat) (records : List (List (List Char))) : Bool :=
  decide (1 ≤ C) && records.all fun r => decide (r.length = C) && r.all (clean_field delim)

/-! ## `vroom_lgl.h` -/

/-- The byte that ends a C string. -/
def NUL : Char := Char.ofNat 0

/-- A C string literal in memory: its characters, then the terminating NUL. -/
def c_str (s : String) : List Char := s.toList ++ [NUL]

/-- The array `true_values`, up to its closing null pointer. -/
def true_values : List (List Char) :=
  [c_str "T", c_str "t", c_str "True", c_str "TRUE", c_str "true"]

/-- The array `false_values`, up to its closing null pointer. -/
def false_values : List (List Char) :=
  [c_str "F", c_str "f", c_str "False", c_str "FALSE", c_str "false"]

/-- The libc `strlen`: the number of bytes before the first NUL. -/
def strlen : List Char → Nat
  | [] => 0
  | c :: cs => if c = NUL then 0 else strlen cs + 1

/-- The libc `strncmp(a, b, n)`: compares at most `n` bytes and stops after a
NUL; zero when no difference was met. Bytes past the end of a list read as NUL. -/
def strncmp : List Char → List Char → Nat → Int
  | _, _, 0 => 0
  | [], [], _ + 1 => 0
  | [], b :: _, _ + 1 => if b = NUL then 0 else -1
  | a :: _, [], _ + 1 => if a = NUL then 0 else 1
  | a :: as, b :: bs, n + 1 =>
      if a ≠ b then (a.toNat : Int) - (b.toNat : Int)
      else if a = NUL then 0
      else strncmp as bs n

/-- `isTrue(start, end)` on the bytes `[start, end)`. -/
def isTrue (s : List Char) : Bool :=
  true_values.any fun v => strlen v == s.length && strncmp s v s.length == 0

/-- `isFalse(start, end)` on the bytes `[start, end)`. -/
def isFalse (s : List Char) : Bool :=
  false_values.any fun v => strlen v == s.length && strncmp s v s.length == 0

/-- R's `NA_LOGICAL`, the `int` `INT_MIN`. -/
def NA_LOGICAL : Int := -2147483648

/-- `parse_logical(start, end)` on the bytes `[start, end)`; the `int` result
is `1` for `true` and `0` for `false`. -/
def parse_logical (s : List Char) : Int :=
  if isTrue s || (s.length == 1 && s.head? == some '1') then 1
  else if isFalse s || (s.length == 1 && s.head? == some '0') then 0
  else NA_LOGICAL

/-- The byte strings that parse as true: the literals of `true_values`, and "1". -/
def true_literals : List (List Char) :=
  ["T".toList, "t".toList, "True".toList, "TRUE".toList, "true".toList, "1".toList]

/-- The byte strings that parse as false: the literals of `false_values`, and "0". -/
def false_literals : List (List Char) :=
  ["F".toList, "f".toList, "False".toList, "FALSE".toList, "false".toList, "0".toList]

/-! ## Auxiliary definitions for the proofs -/

/-- The file of the spec's concrete scenario. -/
def scenario_file : List Char := "a,b,c\n1,2,3\n4,5,6\n".toList

/-- The index of the spec's concrete scenario, built with a header. -/
def scenario_index : index :=
  { mmap_ := scenario_file
    idx_ := [0, 2, 4, 6, 8, 10, 12, 14, 16, 18]
    has_header_ := true
    columns_ := 3
    rows_ := 2 }

/-- A file of 32768 bytes whose last record has no record separator: "a,b\n",
then 32764 bytes `c`. -/
def unterminated_file : List Char := "a,b\n".toList ++ List.replicate 32764 'c'

/-- A file of 32768 bytes made of one record of two fields, the first of
32765 bytes `a`: the first record separator is the last byte. -/
def long_record_file : List Char := List.replicate 32765 'a' ++ [',', 'b', '\n']

/-- The value of `find_next_newline(mmap_, start)` for `start` inside the
mapping: the position of the first record separator at or after `start`, or
`start` when there is none. -/
def next_newline (mmap_ : List Char) (start : Nat) : Nat :=
  match memchr (mmap_.drop start) '\n' (memchr_count mmap_.length start) with
  | none => start
  | some k => start + k

/-- A file of five fields in two records of unequal length: "a,b,c\n", then
"d\n". -/
def ragged_file : List Char := "a,b,c\nd\n".toList

/-- The offsets that a walk over the bytes `cs`, the first at offset `i`,
records: one past every record separator and every delimiter. -/
def scan_offsets (delim : Char) : List Char → Nat → List Nat
  | [], _ => []
  | c :: cs, i =>
      if c = '\n' ∨ c = delim then (i + 1) :: scan_offsets delim cs (i + 1)
      else scan_offsets delim cs (i + 1)

/-- The fields of a record, each with the byte that follows it in the file. -/
def record_chunks (delim : Char) : List (List Char) → List (List Char × Char)
  | [] => [([], '\n')]
  | [f] => [(f, '\n')]
  | f :: g :: fs => (f, delim) :: record_chunks delim (g :: fs)

/-- The bytes of a list of fields, each followed by its separator byte. -/
def unchunk (chunks : List (List Char × Char)) : List Char :=
  (chunks.map fun p => p.1 ++ [p.2]).flatten

/-- The offsets one past the separator of each field, for fields laid out from
offset `i` on. -/
def offsets_of : List (List Char) → Nat → List Nat
  | [], _ => []
  | f :: fs, i => (i + f.length + 1) :: offsets_of fs (i + f.length + 1)

/-! ## Proofs: `parse_logical` -/

theorem strlen_append_NUL (l : List Char) (h : NUL ∉ l) (t : List Char) :
    strlen (l ++ NUL :: t) = l.length := by
  induction l with
  | nil => simp [strlen]
  | cons a l ih =>
    have ha : a ≠ NUL := fun e => h (by simp [e])
    have hl : NUL ∉ l := fun e => h (by simp [e])
    simp [strlen, ha, ih hl]

theorem strncmp_eq_zero_iff (l : List Char) (h : NUL ∉ l) :
    ∀ s : List Char, s.length = l.length → (strncmp s (l ++ [NUL]) s.length = 0 ↔ s = l) := by
  induction l with
  | nil =>
    intro s hs
    have : s = [] := List.length_eq_zero.mp hs
    subst this
    simp [strncmp]
  | cons b l ih =>
    intro s hs
    cases s with
    | nil => simp at hs
    | cons a s =>
      have hb : b ≠ NUL := fun e => h (by simp [e])
      have hl : NUL ∉ l := fun e => h (by simp [e])
      have hs2 : s.length = l.length := by simpa using hs
      by_cases hab : a = b
      · subst hab
        simp [strncmp, hb, ih hl s hs2]
      · have hne : (a.toNat : Int) - (b.toNat : Int) ≠ 0 := by
          intro e
          apply hab
          apply Char.ext
          apply UInt32.ext
          have : a.toNat = b.toNat := by omega
          simpa [Char.toNat, UInt32.toNat] using this
        simp [strncmp, hab, hne]

theorem literal_test_iff (lit : String) (h : NUL ∉ lit.toList) (s : List Char) :
    (strlen (c_str lit) == s.length && strncmp s (c_str lit) s.length == 0) = true ↔
      s = lit.toList := by
  unfold c_str
  rw [strlen_append_NUL _ h]
  constructor
  · intro hx
    simp only [Bool.and_eq_true, beq_iff_eq] at hx
    exact (strncmp_eq_zero_iff _ h s hx.1.symm).mp hx.2
  · intro hx
    simp only [Bool.and_eq_true, beq_iff_eq]
    exact ⟨by rw [hx], (strncmp_eq_zero_iff _ h s (by rw [hx])).mpr hx⟩

theorem isTrue_iff (s : List Char) :
    isTrue s = true ↔
      s ∈ ["T".toList, "t".toList, "True".toList, "TRUE".toList, "true".toList] := by
  simp only [isTrue, true_values, List.any_cons, List.any_nil, Bool.or_false, Bool.or_eq_true,
    List.mem_cons, List.mem_singleton, List.not_mem_nil, or_false]
  rw [literal_test_iff "T" (by decide), literal_test_iff "t" (by decide),
    literal_test_iff "True" (by decide), literal_test_iff "TRUE" (by decide),
    literal_test_iff "true" (by decide)]

theorem isFalse_iff (s : List Char) :
    isFalse s = true ↔
      s ∈ ["F".toList, "f".toList, "False".toList, "FALSE".toList, "false".toList] := by
  simp only [isFalse, false_values, List.any_cons, List.any_nil, Bool.or_false, Bool.or_eq_true,
    List.mem_cons, List.mem_singleton, List.not_mem_nil, or_false]
  rw [literal_test_iff "F" (by decide), literal_test_iff "f" (by decide),
    literal_test_iff "False" (by decide), literal_test_iff "FALSE" (by decide),
    literal_test_iff "false" (by decide)]

theorem one_byte_test_iff (s : List Char) (c : Char) :
    (s.length == 1 && s.head? == some c) = true ↔ s = [c] := by
  cases s with
  | nil => simp
  | cons a t =>
    cases t with
    | nil => simp
    | cons b u => simp

theorem true_test_iff (s : List Char) :
    (isTrue s || (s.length == 1 && s.head? == some '1')) = true ↔ s ∈ true_literals := by
  rw [Bool.or_eq_true, isTrue_iff, one_byte_test_iff]
  simp only [true_literals, List.mem_cons, List.mem_singleton, List.not_mem_nil, or_false]
  have : "1".toList = ['1'] := rfl
  rw [this]
  tauto

theorem false_test_iff (s : List Char) :
    (isFalse s || (s.length == 1 && s.head? == some '0')) = true ↔ s ∈ false_literals := by
  rw [Bool.or_eq_true, isFalse_iff, one_byte_test_iff]
  simp only [false_literals, List.mem_cons, List.mem_singleton, List.not_mem_nil, or_false]
  have : "0".toList = ['0'] := rfl
  rw [this]
  tauto

theorem true_false_disjoint (s : List Char) (ht : s ∈ true_literals) : s ∉ false_literals := by
  intro hf
  simp only [true_literals, false_literals, List.mem_cons, List.mem_singleton,
    List.not_mem_nil, or_false] at ht hf
  rcases ht with h | h | h | h | h | h <;> subst h <;> revert hf <;> decide

/-- C9: `parse_logical` is an exact literal match. It returns true (`1`) exactly
on "T", "t", "True", "TRUE", "true", "1", false (`0`) exactly on "F", "f",
"False", "FALSE", "false", "0", and `NA_LOGICAL` on every other byte string;
the true test and the false test never both succeed, so their order does not
matter. -/
theorem parse_logical_exact_match (s : List Char) :
    (parse_logical s = 1 ↔ s ∈ true_literals) ∧
    (parse_logical s = 0 ↔ s ∈ false_literals) ∧
    (parse_logical s = NA_LOGICAL ↔ s ∉ true_literals ∧ s ∉ false_literals) ∧
    ¬ (isTrue s = true ∧ isFalse s = true) ∧
    ¬ ((isTrue s || (s.length == 1 && s.head? == some '1')) = true ∧
        (isFalse s || (s.length == 1 && s.head? == some '0')) = true) := by
  have hd := true_false_disjoint s
  have ht := true_test_iff s
  have hf := false_test_iff s
  have hna1 : NA_LOGICAL ≠ 1 := by decide
  have hna0 : NA_LOGICAL ≠ 0 := by decide
  refine ⟨?_, ?_, ?_, ?_, ?_⟩
  · unfold parse_logical
    by_cases h1 : s ∈ true_literals
    · rw [if_pos (ht.mpr h1)]; simp [h1]
    · rw [if_neg (fun h => h1 (ht.mp h))]
      by_cases h0 : s ∈ false_literals
      · rw [if_pos (hf.mpr h0)]; simp [h1]
      · rw [if_neg (fun h => h0 (hf.mp h))]; simp [h1, hna1]
  · unfold parse_logical
    by_cases h1 : s ∈ true_literals
    · rw [if_pos (ht.mpr h1)]; simp [hd h1]
    · rw [if_neg (fun h => h1 (ht.mp h))]
      by_cases h0 : s ∈ false_literals
      · rw [if_pos (hf.mpr h0)]; simp [h0]
      · rw [if_neg (fun h => h0 (hf.mp h))]; simp [h0, hna0]
  · unfold parse_logical
    by_cases h1 : s ∈ true_literals
    · rw [if_pos (ht.mpr h1)]; simp [h1, hna1.symm]
    · rw [if_neg (fun h => h1 (ht.mp h))]
      by_cases h0 : s ∈ false_literals
      · rw [if_pos (hf.mpr h0)]; simp [h0, hna0.symm]
      · rw [if_neg (fun h => h0 (hf.mp h))]; simp [h0, h1]
  · rintro ⟨a, b⟩
    exact hd (ht.mp (by simp [a])) (hf.mp (by simp [b]))
  · rintro ⟨a, b⟩
    exact hd (ht.mp a) (hf.mp b)

/-! ## Proofs: `next_newline` -/

theorem memchr_scan_spec (c : Char) : ∀ (s : List Char) (n k : Nat),
    (∃ j, memchr_scan c s n k = some (k + j) ∧ j < n ∧ s[j]? = some c ∧
        ∀ q, q < j → s[q]? ≠ some c) ∨
    (memchr_scan c s n k = none ∧ ∀ q, q < n → s[q]? ≠ some c) := by
  intro s
  induction s with
  | nil => intro n k; right; simp [memchr_scan]
  | cons b bs ih =>
    intro n k
    cases n with
    | zero => right; simp [memchr_scan]
    | succ n =>
      by_cases hb : b = c
      · left
        refine ⟨0, ?_, ?_, ?_, ?_⟩
        · simp [memchr_scan, hb]
        · omega
        · simp [hb]
        · intro q hq; omega
      · rcases ih n (k + 1) with ⟨j, h1, h2, h3, h4⟩ | ⟨h1, h2⟩
        · left
          refine ⟨j + 1, ?_, ?_, ?_, ?_⟩
          · simp only [memchr_scan, hb, if_false, h1]
            congr 1; omega
          · omega
          · simpa using h3
          · intro q hq
            cases q with
            | zero => simp [hb]
            | succ q => simpa using h4 q (by omega)
        · right
          refine ⟨?_, ?_⟩
          · simp only [memchr_scan, hb, if_false, h1]
          · intro q hq
            cases q with
            | zero => simp [hb]
            | succ q => simpa using h2 q (by omega)

theorem memchr_count_eq (size start : Nat) (hs : start ≤ size) (hsize : size < SIZE_MOD) :
    memchr_count size start = size - start := by
  unfold memchr_count
  have h1 : start % SIZE_MOD = start := Nat.mod_eq_of_lt (by omega)
  rw [h1]
  have h2 : size + SIZE_MOD - start = (size - start) + SIZE_MOD := by omega
  rw [h2, Nat.add_mod_right]
  exact Nat.mod_eq_of_lt (by omega)

/-- The two outcomes of `next_newline` on an offset inside the mapping. -/
theorem next_newline_cases (mmap_ : List Char) (start : Nat)
    (hs : start ≤ mmap_.length) (hsize : mmap_.length < SIZE_MOD) :
    (next_newline mmap_ start = start ∧ ∀ q, start ≤ q → mmap_[q]? ≠ some '\n') ∨
    (start ≤ next_newline mmap_ start ∧ next_newline mmap_ start < mmap_.length ∧
      mmap_[next_newline mmap_ start]? = some '\n' ∧
      ∀ q, start ≤ q → q < next_newline mmap_ start → mmap_[q]? ≠ some '\n') := by
  unfold next_newline memchr
  rw [memchr_count_eq _ _ hs hsize]
  rcases memchr_scan_spec '\n' (mmap_.drop start) (mmap_.length - start) 0 with
    ⟨j, h1, h2, h3, h4⟩ | ⟨h1, h2⟩
  · right
    rw [h1]
    simp only [Nat.zero_add]
    rw [List.getElem?_drop] at h3
    refine ⟨by omega, by omega, h3, ?_⟩
    intro q hq1 hq2
    have := h4 (q - start) (by omega)
    rw [List.getElem?_drop] at this
    have e : start + (q - start) = q := by omega
    rwa [e] at this
  · left
    rw [h1]
    refine ⟨rfl, ?_⟩
    intro q hq
    by_cases hql : q < mmap_.length
    · have := h2 (q - start) (by omega)
      rw [List.getElem?_drop] at this
      have e : start + (q - start) = q := by omega
      rwa [e] at this
    · rw [List.getElem?_eq_none (by omega)]
      simp

theorem find_next_newline_eq_some (mmap_ : List Char) (start : Nat)
    (hs : start ≤ mmap_.length) :
    find_next_newline mmap_ start = some (next_newline mmap_ start) := by
  unfold find_next_newline next_newline
  rw [if_neg (by omega)]
  cases memchr (mmap_.drop start) '\n' (memchr_count mmap_.length start) <;> rfl

theorem find_next_newline_eq_none (mmap_ : List Char) (start : Nat)
    (hs : mmap_.length < start) : find_next_newline mmap_ start = none := by
  unfold find_next_newline
  rw [if_pos hs]

/-! ## Proofs: integer conversions -/

theorem to_int_of_lt (n : Nat) (h : n < 2 ^ 31) : to_int n = (n : Int) := by
  unfold to_int
  have h1 : n % 2 ^ 32 = n := Nat.mod_eq_of_lt (by omega)
  rw [h1, if_pos h]

theorem to_size_t_natCast (n : Nat) (h : n < 2 ^ 64) : to_size_t (n : Int) = n := by
  unfold to_size_t
  omega

theorem to_size_t_to_int (n : Nat) (h : n < 2 ^ 31) : to_size_t (to_int n) = n := by
  rw [to_int_of_lt n h, to_size_t_natCast n (by omega)]

theorem to_int_eq_zero_iff (n : Nat) (h : n < 2 ^ 31) : to_int n = 0 ↔ n = 0 := by
  rw [to_int_of_lt n h]
  omega

/-! ## Proofs: the walk of `index_region` -/

theorem index_region_loop_fst (delim : Char) (id : Nat) :
    ∀ (cs : List Char) (i : Nat) (destination : List Nat) (columns_ : Nat),
      (index_region_loop delim id cs i destination columns_).1 =
        destination ++ scan_offsets delim cs i := by
  intro cs
  induction cs with
  | nil => intro i d c; simp [index_region_loop, scan_offsets]
  | cons b bs ih =>
    intro i d c
    by_cases h1 : b = '\n'
    · simp [index_region_loop, scan_offsets, h1, ih]
    · by_cases h2 : b = delim
      · subst h2; simp [index_region_loop, scan_offsets, h1, ih]
      · simp [index_region_loop, scan_offsets, h1, h2, ih]

theorem index_region_loop_snd_of_id_ne_zero (delim : Char) (id : Nat) (hid : id ≠ 0) :
    ∀ (cs : List Char) (i : Nat) (destination : List Nat) (columns_ : Nat),
      (index_region_loop delim id cs i destination columns_).2 = columns_ := by
  intro cs
  induction cs with
  | nil => intro i d c; simp [index_region_loop]
  | cons b bs ih =>
    intro i d c
    by_cases h1 : b = '\n'
    · simp [index_region_loop, h1, ih, hid]
    · by_cases h2 : b = delim
      · subst h2; simp [index_region_loop, h1, ih]
      · simp [index_region_loop, h1, h2, ih]

theorem index_region_loop_snd_of_columns_ne_zero (delim : Char) (id : Nat) :
    ∀ (cs : List Char) (i : Nat) (destination : List Nat) (columns_ : Nat), columns_ ≠ 0 →
      (index_region_loop delim id cs i destination columns_).2 = columns_ := by
  intro cs
  induction cs with
  | nil => intro i d c _; simp [index_region_loop]
  | cons b bs ih =>
    intro i d c hc
    by_cases h1 : b = '\n'
    · simp [index_region_loop, h1, ih _ _ _ hc, hc]
    · by_cases h2 : b = delim
      · subst h2; simp [index_region_loop, h1, ih _ _ _ hc]
      · simp [index_region_loop, h1, h2, ih _ _ _ hc]

theorem index_region_loop_snd_no_newline (delim : Char) (id : Nat) :
    ∀ (cs : List Char) (i : Nat) (destination : List Nat) (columns_ : Nat), '\n' ∉ cs →
      (index_region_loop delim id cs i destination columns_).2 = columns_ := by
  intro cs
  induction cs with
  | nil => intro i d c _; simp [index_region_loop]
  | cons b bs ih =>
    intro i d c hn
    have h1 : b ≠ '\n' := fun e => hn (by simp [e])
    have h3 : '\n' ∉ bs := fun e => hn (by simp [e])
    by_cases h2 : b = delim
    · subst h2; simp [index_region_loop, h1, ih _ _ _ h3]
    · simp [index_region_loop, h1, h2, ih _ _ _ h3]

theorem index_region_loop_snd_first_newline (delim : Char) :
    ∀ (pre : List Char) (post : List Char) (i : Nat) (destination : List Nat), '\n' ∉ pre →
      destination ≠ [] →
      (index_region_loop delim 0 (pre ++ '\n' :: post) i destination 0).2 =
        destination.length + (scan_offsets delim pre i).length := by
  intro pre
  induction pre with
  | nil =>
    intro post i d _ hd
    have hl : d.length ≠ 0 := by
      intro e; exact hd (List.length_eq_zero.mp e)
    simp [index_region_loop, scan_offsets,
      index_region_loop_snd_of_columns_ne_zero delim 0 post (i + 1) (d ++ [i + 1]) d.length hl]
  | cons b bs ih =>
    intro post i d hn hd
    have h1 : b ≠ '\n' := fun e => hn (by simp [e])
    have h3 : '\n' ∉ bs := fun e => hn (by simp [e])
    by_cases h2 : b = delim
    · have hd2 : d ++ [i + 1] ≠ [] := by simp
      subst h2
      simp [index_region_loop, scan_offsets, h1, ih post (i + 1) (d ++ [i + 1]) h3 hd2]
      omega
    · simp [index_region_loop, scan_offsets, h1, h2, ih post (i + 1) d h3 hd]

theorem scan_offsets_append (delim : Char) :
    ∀ (a b : List Char) (i : Nat),
      scan_offsets delim (a ++ b) i = scan_offsets delim a i ++ scan_offsets delim b (i + a.length) := by
  intro a
  induction a with
  | nil => intro b i; simp [scan_offsets]
  | cons c cs ih =>
    intro b i
    have e : i + 1 + cs.length = i + (cs.length + 1) := by omega
    by_cases h : c = '\n' ∨ c = delim
    · simp [scan_offsets, h, ih, e]
    · simp [scan_offsets, h, ih, e]

/-- Every recorded offset lies in `(i, i + length]`, and the offsets increase. -/
theorem scan_offsets_bounds (delim : Char) :
    ∀ (cs : List Char) (i : Nat), ∀ v ∈ scan_offsets delim cs i, i < v ∧ v ≤ i + cs.length := by
  intro cs
  induction cs with
  | nil => intro i v hv; simp [scan_offsets] at hv
  | cons c cs ih =>
    intro i v hv
    by_cases h : c = '\n' ∨ c = delim
    · simp only [scan_offsets, h, if_true, List.mem_cons] at hv
      rcases hv with hv | hv
      · subst hv; simp
      · have := ih (i + 1) v hv
        simp only [List.length_cons]; omega
    · simp only [scan_offsets, h, if_false] at hv
      have := ih (i + 1) v hv
      simp only [List.length_cons]; omega

theorem scan_offsets_sorted (delim : Char) :
    ∀ (cs : List Char) (i : Nat), (scan_offsets delim cs i).Pairwise (· < ·) := by
  intro cs
  induction cs with
  | nil => intro i; simp [scan_offsets]
  | cons c cs ih =>
    intro i
    by_cases h : c = '\n' ∨ c = delim
    · simp only [scan_offsets, h, if_true, List.pairwise_cons]
      refine ⟨?_, ih (i + 1)⟩
      intro v hv
      have := scan_offsets_bounds delim cs (i + 1) v hv
      omega
    · simp only [scan_offsets, h, if_false]
      exact ih (i + 1)

/-! ## Proofs: region alignment -/

theorem next_newline_le_length (mmap_ : List Char) (start : Nat)
    (hs : start ≤ mmap_.length) (hsize : mmap_.length < SIZE_MOD) :
    next_newline mmap_ start ≤ mmap_.length := by
  rcases next_newline_cases mmap_ start hs hsize with ⟨h1, _⟩ | ⟨_, h2, _, _⟩ <;> omega

theorem le_next_newline (mmap_ : List Char) (start : Nat)
    (hs : start ≤ mmap_.length) (hsize : mmap_.length < SIZE_MOD) :
    start ≤ next_newline mmap_ start := by
  rcases next_newline_cases mmap_ start hs hsize with ⟨h1, _⟩ | ⟨h1, _, _, _⟩ <;> omega

theorem next_newline_length (mmap_ : List Char) (hsize : mmap_.length < SIZE_MOD) :
    next_newline mmap_ mmap_.length = mmap_.length := by
  have h1 := next_newline_le_length mmap_ mmap_.length (le_refl _) hsize
  have h2 := le_next_newline mmap_ mmap_.length (le_refl _) hsize
  omega

theorem next_newline_mono (mmap_ : List Char) (a b : Nat) (hab : a ≤ b)
    (hb : b ≤ mmap_.length) (hsize : mmap_.length < SIZE_MOD) :
    next_newline mmap_ a ≤ next_newline mmap_ b := by
  have hb2 := le_next_newline mmap_ b hb hsize
  rcases next_newline_cases mmap_ a (by omega) hsize with ⟨h1, _⟩ | ⟨h1, h2, h3, h4⟩
  · omega
  · by_cases hc : next_newline mmap_ a < b
    · omega
    · rcases next_newline_cases mmap_ b hb hsize with ⟨g1, g2⟩ | ⟨g1, g2, g3, g4⟩
      · exact absurd h3 (g2 _ (by omega))
      · by_contra hlt
        exact absurd g3 (h4 _ (by omega) (by omega))

theorem size_mod_eq : SIZE_MOD = 2 ^ 64 := rfl

theorem aligned_region_zero (mmap_ : List Char) (start end_ : Nat)
    (hlen : mmap_.length < 2 ^ 31) (hse : start ≤ end_) (he : end_ ≤ mmap_.length) :
    aligned_region mmap_ start end_ 0 = some (start, next_newline mmap_ end_) := by
  have hsize : mmap_.length < SIZE_MOD := by rw [size_mod_eq]; omega
  have h1 := next_newline_le_length mmap_ end_ he hsize
  unfold aligned_region
  have h0 : to_int 0 = 0 := by decide
  simp only [h0, if_true]
  rw [to_size_t_to_int end_ (by omega), to_size_t_to_int start (by omega),
    find_next_newline_eq_some mmap_ end_ he, Option.map_some',
    to_size_t_to_int _ (by omega)]

theorem aligned_region_succ (mmap_ : List Char) (start end_ id : Nat)
    (hlen : mmap_.length < 2 ^ 31) (hse : start ≤ end_) (he : end_ ≤ mmap_.length)
    (hid : id ≠ 0) (hid2 : id < 2 ^ 31) :
    aligned_region mmap_ start end_ id =
      some (next_newline mmap_ start, next_newline mmap_ end_) := by
  have hsize : mmap_.length < SIZE_MOD := by rw [size_mod_eq]; omega
  have h1 := next_newline_le_length mmap_ end_ he hsize
  have h2 := next_newline_le_length mmap_ start (by omega) hsize
  unfold aligned_region
  have h0 : ¬ to_int id = 0 := fun e => hid ((to_int_eq_zero_iff id hid2).mp e)
  simp only [h0, if_false]
  rw [to_size_t_to_int end_ (by omega), to_size_t_to_int start (by omega),
    find_next_newline_eq_some mmap_ end_ he, find_next_newline_eq_some mmap_ start (by omega),
    Option.some_bind, Option.map_some', to_size_t_to_int _ (by omega),
    to_size_t_to_int _ (by omega)]

theorem index_region_eq_some (source : List Char) (destination : List Nat) (columns_ : Nat)
    (delim : Char) (start end_ id : Nat) (he : end_ ≤ source.length) :
    index_region source destination columns_ delim start end_ id =
      some (index_region_loop delim id ((source.drop start).take (end_ - start)) start
        destination columns_) := by
  unfold index_region
  rw [if_neg (by omega)]

theorem contiguous_le : ∀ (spans : List (Nat × Nat)) (a b : Nat),
    contiguous a spans b = true → a ≤ b := by
  intro spans
  induction spans with
  | nil => intro a b h; simp [contiguous] at h; omega
  | cons p rest ih =>
    intro a b h
    obtain ⟨s, e⟩ := p
    simp only [contiguous, Bool.and_eq_true, decide_eq_true_eq] at h
    have := ih e b h.2
    omega

/-! ## Proofs: the workers and the merged offsets -/

theorem scan_offsets_slice (delim : Char) (mmap_ : List Char) (x y : Nat) (hxy : x ≤ y)
    (hy : y ≤ mmap_.length) :
    scan_offsets delim ((mmap_.drop x).take (y - x)) x ++ scan_offsets delim (mmap_.drop y) y =
      scan_offsets delim (mmap_.drop x) x := by
  have h1 : mmap_.drop x = (mmap_.drop x).take (y - x) ++ mmap_.drop y := by
    have h := (List.take_append_drop (y - x) (mmap_.drop x)).symm
    rw [List.drop_drop] at h
    have e : x + (y - x) = y := by omega
    rwa [e] at h
  have h2 : ((mmap_.drop x).take (y - x)).length = y - x := by
    rw [List.length_take, List.length_drop]
    omega
  conv_rhs => rw [h1]
  rw [scan_offsets_append, h2]
  have e : x + (y - x) = y := by omega
  rw [e]

theorem worker_zero (mmap_ : List Char) (delim : Char) (columns_ start end_ : Nat)
    (hlen : mmap_.length < 2 ^ 31) (hse : start ≤ end_) (he : end_ ≤ mmap_.length) :
    worker mmap_ delim columns_ start end_ 0 =
      some (index_region_loop delim 0
        ((mmap_.drop start).take (next_newline mmap_ end_ - start)) start [0] columns_) := by
  have hsize : mmap_.length < SIZE_MOD := by rw [size_mod_eq]; omega
  have h0 : to_int 0 = 0 := by decide
  have h1 : to_size_t 0 = 0 := by decide
  unfold worker
  rw [aligned_region_zero mmap_ start end_ hlen hse he, Option.some_bind,
    index_region_eq_some _ _ _ _ _ _ _ (next_newline_le_length mmap_ end_ he hsize)]
  simp only [h0, h1, if_true]

theorem worker_succ (mmap_ : List Char) (delim : Char) (columns_ start end_ id : Nat)
    (hlen : mmap_.length < 2 ^ 31) (hse : start ≤ end_) (he : end_ ≤ mmap_.length)
    (hid : id ≠ 0) (hid2 : id < 2 ^ 31) :
    worker mmap_ delim columns_ start end_ id =
      some (index_region_loop delim id
        ((mmap_.drop (next_newline mmap_ start)).take
          (next_newline mmap_ end_ - next_newline mmap_ start))
        (next_newline mmap_ start) [] columns_) := by
  have hsize : mmap_.length < SIZE_MOD := by rw [size_mod_eq]; omega
  have h0 : ¬ to_int id = 0 := fun e => hid ((to_int_eq_zero_iff id hid2).mp e)
  unfold worker
  rw [aligned_region_succ mmap_ start end_ id hlen hse he hid hid2, Option.some_bind,
    index_region_eq_some _ _ _ _ _ _ _ (next_newline_le_length mmap_ end_ he hsize),
    to_size_t_to_int id hid2]
  simp only [h0, if_false]

/-- The workers after worker 0 are defined, leave `columns_` alone and record
the offsets of the bytes from the aligned start of the first of them on. -/
theorem run_workers_succ (mmap_ : List Char) (delim : Char) (hlen : mmap_.length < 2 ^ 31) :
    ∀ (spans : List (Nat × Nat)) (a id columns_ : Nat),
      contiguous a spans mmap_.length = true → id ≠ 0 → id + spans.length ≤ 2 ^ 31 →
      ∃ vs, run_workers mmap_ delim spans id columns_ = some (vs, columns_) ∧
        vs.flatten =
          scan_offsets delim (mmap_.drop (next_newline mmap_ a)) (next_newline mmap_ a) := by
  have hsize : mmap_.length < SIZE_MOD := by rw [size_mod_eq]; omega
  intro spans
  induction spans with
  | nil =>
    intro a id c hc _ _
    simp only [contiguous, decide_eq_true_eq] at hc
    subst hc
    rw [next_newline_length mmap_ hsize]
    exact ⟨[], by simp [run_workers], by simp [scan_offsets]⟩
  | cons p rest ih =>
    intro a id c hc hid hl
    obtain ⟨s, e⟩ := p
    simp only [List.length_cons] at hl
    simp only [contiguous, Bool.and_eq_true, decide_eq_true_eq] at hc
    obtain ⟨⟨hs, hse⟩, hrest⟩ := hc
    subst hs
    have he : e ≤ mmap_.length := contiguous_le rest e _ hrest
    have hw := worker_succ mmap_ delim c s e id hlen hse he hid (by omega)
    have hw2 := index_region_loop_snd_of_id_ne_zero delim id hid
      ((mmap_.drop (next_newline mmap_ s)).take (next_newline mmap_ e - next_newline mmap_ s))
      (next_newline mmap_ s) [] c
    have hw1 := index_region_loop_fst delim id
      ((mmap_.drop (next_newline mmap_ s)).take (next_newline mmap_ e - next_newline mmap_ s))
      (next_newline mmap_ s) [] c
    obtain ⟨vs, hvs1, hvs2⟩ := ih e (id + 1) c hrest (by omega) (by omega)
    refine ⟨(index_region_loop delim id
      ((mmap_.drop (next_newline mmap_ s)).take (next_newline mmap_ e - next_newline mmap_ s))
      (next_newline mmap_ s) [] c).1 :: vs, ?_, ?_⟩
    · simp only [run_workers, hw, Option.some_bind, hw2, hvs1, Option.map_some']
    · rw [List.flatten_cons, hvs2, hw1, List.nil_append]
      exact scan_offsets_slice delim mmap_ _ _
        (next_newline_mono mmap_ s e hse he hsize)
        (next_newline_le_length mmap_ e he hsize)

/-- The workers are defined; the column count is the one that worker 0 finds in
its aligned region; and the merged offsets do not depend on the split: they
are offset `0` followed by the offsets of one walk over the whole file. -/
theorem run_workers_zero (mmap_ : List Char) (delim : Char) (hlen : mmap_.length < 2 ^ 31)
    (e : Nat) (rest : List (Nat × Nat)) (hl : rest.length + 1 ≤ 2 ^ 31)
    (hc : contiguous 0 ((0, e) :: rest) mmap_.length = true) :
    ∃ vs, run_workers mmap_ delim ((0, e) :: rest) 0 0 =
        some (vs, (index_region_loop delim 0 (mmap_.take (next_newline mmap_ e)) 0 [0] 0).2) ∧
      vs.flatten = 0 :: scan_offsets delim mmap_ 0 := by
  have hsize : mmap_.length < SIZE_MOD := by rw [size_mod_eq]; omega
  simp only [contiguous, Bool.and_eq_true, decide_eq_true_eq] at hc
  obtain ⟨⟨_, hse⟩, hrest⟩ := hc
  have he : e ≤ mmap_.length := contiguous_le rest e _ hrest
  have hw := worker_zero mmap_ delim 0 0 e hlen hse he
  simp only [List.drop_zero, Nat.sub_zero] at hw
  have hw1 := index_region_loop_fst delim 0 (mmap_.take (next_newline mmap_ e)) 0 [0] 0
  obtain ⟨vs, hvs1, hvs2⟩ := run_workers_succ mmap_ delim hlen rest e 1
    (index_region_loop delim 0 (mmap_.take (next_newline mmap_ e)) 0 [0] 0).2 hrest
    (by omega) (by omega)
  refine ⟨(index_region_loop delim 0 (mmap_.take (next_newline mmap_ e)) 0 [0] 0).1 :: vs,
    ?_, ?_⟩
  · simp only [run_workers, hw, Option.some_bind, hvs1, Option.map_some']
  · rw [List.flatten_cons, hvs2, hw1]
    have := scan_offsets_slice delim mmap_ 0 (next_newline mmap_ e) (Nat.zero_le _)
      (next_newline_le_length mmap_ e he hsize)
    simp only [List.drop_zero, Nat.sub_zero] at this
    rw [List.singleton_append, List.cons_append, this]

/-! ## Proofs: the reservation and the result of the constructor -/

theorem total_size_foldl : ∀ (values : List (List Nat)) (n : Nat),
    n + values.flatten.length < 2 ^ 31 →
    values.foldl (fun (sum : Int) v => to_int ((to_size_t sum + v.length) % SIZE_MOD)) (n : Int) =
      ((n + values.flatten.length : Nat) : Int) := by
  intro values
  induction values with
  | nil => intro n _; simp
  | cons v vs ih =>
    intro n h
    simp only [List.flatten_cons, List.length_append] at h
    have h1 : to_size_t (n : Int) = n := to_size_t_natCast n (by omega)
    have h2 : (n + v.length) % SIZE_MOD = n + v.length :=
      Nat.mod_eq_of_lt (by rw [size_mod_eq]; omega)
    have h3 : to_int (n + v.length) = ((n + v.length : Nat) : Int) :=
      to_int_of_lt _ (by omega)
    rw [List.foldl_cons, h1, h2, h3, ih (n + v.length) (by omega)]
    simp only [List.flatten_cons, List.length_append]
    congr 1
    omega

/-- With fewer than `2 ^ 31` merged offsets `total_size` is their number and
`reserve` does not throw. -/
theorem reserve_ok (values : List (List Nat)) (h : values.flatten.length < 2 ^ 31) :
    ¬ MAX_SIZE < to_size_t (total_size values) := by
  have h1 := total_size_foldl values 0 (by omega)
  simp only [Nat.cast_zero, Nat.zero_add] at h1
  unfold total_size
  rw [h1, to_size_t_natCast _ (by omega)]
  have : (2 : Nat) ^ 31 ≤ MAX_SIZE := by decide
  omega

/-- At `2 ^ 31` merged offsets `total_size` is `-2147483648`, its conversion to
`size_t` exceeds `max_size()` and `reserve` throws. -/
theorem reserve_throws_at_two_pow_31 :
    total_size [List.replicate (2 ^ 31) 0] = -2147483648 ∧
    MAX_SIZE < to_size_t (total_size [List.replicate (2 ^ 31) 0]) := by
  have h0 : to_size_t 0 = 0 := by decide
  have h1 : (0 + 2 ^ 31) % SIZE_MOD = 2147483648 := by decide
  have h2 : to_int 2147483648 = -2147483648 := by decide
  have h : total_size [List.replicate (2 ^ 31) 0] = -2147483648 := by
    simp only [total_size, List.foldl_cons, List.foldl_nil, List.length_replicate, h0, h1, h2]
  rw [h]
  exact ⟨rfl, by decide⟩

/-- What the constructor returns once the workers are known. -/
theorem build_of_workers (mmap_ : List Char) (delim : Char) (has_header : Bool)
    (spans : List (Nat × Nat)) (vs : List (List Nat)) (c : Nat)
    (hw : run_workers mmap_ delim spans 0 0 = some (vs, c))
    (hoff : vs.flatten.length < 2 ^ 31) (hc : c ≠ 0) :
    index.build mmap_ delim has_header spans =
      some {
        mmap_ := mmap_
        idx_ := vs.flatten
        has_header_ := has_header
        columns_ := c
        rows_ :=
          if has_header then (vs.flatten.length / c + SIZE_MOD - 1) % SIZE_MOD
          else vs.flatten.length / c } := by
  unfold index.build
  rw [hw]
  simp only [reserve_ok vs hoff, hc, if_false]

/-- What a successful build returns. -/
theorem build_eq_some (mmap_ : List Char) (delim : Char) (has_header : Bool)
    (spans : List (Nat × Nat)) (x : vroom.index)
    (hx : index.build mmap_ delim has_header spans = some x) :
    ∃ vs c, run_workers mmap_ delim spans 0 0 = some (vs, c) ∧ c ≠ 0 ∧ x.mmap_ = mmap_ ∧
      x.idx_ = vs.flatten ∧ x.has_header_ = has_header ∧ x.columns_ = c ∧
      x.rows_ = (if has_header then (x.idx_.length / x.columns_ + SIZE_MOD - 1) % SIZE_MOD
        else x.idx_.length / x.columns_) := by
  unfold index.build at hx
  cases hr : run_workers mmap_ delim spans 0 0 with
  | none => rw [hr] at hx; simp at hx
  | some r =>
    obtain ⟨vs, c⟩ := r
    rw [hr] at hx
    simp only at hx
    by_cases h1 : MAX_SIZE < to_size_t (total_size vs)
    · simp [h1] at hx
    · by_cases hc : c = 0
      · simp [h1, hc] at hx
      · simp only [h1, hc, if_false, Option.some.injEq] at hx
        subst hx
        exact ⟨vs, c, rfl, hc, rfl, rfl, rfl, rfl, rfl⟩

/-- A build whose workers find no column does not return an index. -/
theorem build_eq_none_of_columns_zero (mmap_ : List Char) (delim : Char) (has_header : Bool)
    (spans : List (Nat × Nat)) (vs : List (List Nat))
    (hw : run_workers mmap_ delim spans 0 0 = some (vs, 0)) :
    index.build mmap_ delim has_header spans = none := by
  unfold index.build
  rw [hw]
  simp

/-! ## Proofs: the spans of `parallel_for` -/

theorem parallel_for_spans_length (n k : Nat) : (parallel_for_spans n k).length = k := by
  simp [parallel_for_spans]

theorem parallel_for_spans_contiguous_aux (n k : Nat) :
    ∀ (m i : Nat), i + (m + 1) = k →
      contiguous (i * (n / k))
        ((List.range' i (m + 1)).map fun i =>
          (i * (n / k), if i + 1 = k then n else (i + 1) * (n / k))) n = true := by
  intro m
  induction m with
  | zero =>
    intro i hi
    have h1 : i * (n / k) ≤ n := by
      calc i * (n / k) ≤ k * (n / k) := Nat.mul_le_mul_right _ (by omega)
        _ ≤ n := Nat.mul_div_le n k
    simp [List.range'_succ, contiguous, hi, h1]
  | succ m ih =>
    intro i hi
    have h1 : ¬ i + 1 = k := by omega
    have h2 : i * (n / k) ≤ (i + 1) * (n / k) := Nat.mul_le_mul_right _ (by omega)
    have h3 := ih (i + 1) (by omega)
    rw [List.range'_succ, List.map_cons, contiguous]
    simp only [h1, if_false, Bool.and_eq_true, decide_eq_true_eq]
    exact ⟨⟨trivial, h2⟩, h3⟩

theorem parallel_for_spans_contiguous (n k : Nat) (hk : 1 ≤ k) :
    contiguous 0 (parallel_for_spans n k) n = true := by
  obtain ⟨m, rfl⟩ : ∃ m, k = m + 1 := ⟨k - 1, by omega⟩
  have := parallel_for_spans_contiguous_aux n (m + 1) m 0 (by omega)
  simpa [parallel_for_spans, List.range_eq_range'] using this

theorem parallel_for_spans_ne_nil (n k : Nat) (hk : 1 ≤ k) : parallel_for_spans n k ≠ [] := by
  intro h
  have := parallel_for_spans_length n k
  rw [h] at this
  simp at this
  omega

theorem parallel_for_spans_one (n : Nat) : parallel_for_spans n 1 = [(0, n)] := by
  have h : List.range 1 = [0] := rfl
  simp [parallel_for_spans, h]

theorem parallel_for_spans_head (n k : Nat) (hk : 2 ≤ k) :
    ∃ rest, parallel_for_spans n k = (0, n / k) :: rest := by
  obtain ⟨m, rfl⟩ : ∃ m, k = m + 2 := ⟨k - 2, by omega⟩
  refine ⟨(List.range' 1 (m + 1)).map fun i =>
    (i * (n / (m + 2)), if i + 1 = m + 2 then n else (i + 1) * (n / (m + 2))), ?_⟩
  simp [parallel_for_spans, List.range_eq_range', List.range'_succ]

/-! ## Proofs: the layout of a well-formed file -/

theorem clean_field_iff (delim : Char) (f : List Char) :
    clean_field delim f = true ↔ ∀ b ∈ f, b ≠ delim ∧ b ≠ '\n' := by
  simp [clean_field, List.all_eq_true]

theorem well_formed_iff (delim : Char) (C : Nat) (records : List (List (List Char))) :
    well_formed delim C records = true ↔
      1 ≤ C ∧ ∀ r ∈ records, r.length = C ∧ ∀ f ∈ r, clean_field delim f = true := by
  simp [well_formed, List.all_eq_true]

theorem unchunk_nil : unchunk [] = [] := rfl

theorem unchunk_cons (p : List Char × Char) (ch : List (List Char × Char)) :
    unchunk (p :: ch) = p.1 ++ p.2 :: unchunk ch := by
  simp [unchunk]

theorem unchunk_append (a b : List (List Char × Char)) :
    unchunk (a ++ b) = unchunk a ++ unchunk b := by
  simp [unchunk]

theorem encode_record_eq_unchunk (delim : Char) :
    ∀ r : List (List Char), encode_record delim r = unchunk (record_chunks delim r)
  | [] => by simp [encode_record, record_chunks, unchunk]
  | [f] => by simp [encode_record, record_chunks, unchunk]
  | f :: g :: fs => by
    have ih := encode_record_eq_unchunk delim (g :: fs)
    rw [encode_record, record_chunks, unchunk_cons, ih]

theorem encode_file_eq_unchunk (delim : Char) (records : List (List (List Char))) :
    encode_file delim records = unchunk ((records.map (record_chunks delim)).flatten) := by
  induction records with
  | nil => simp [encode_file, unchunk]
  | cons r rs ih =>
    simp only [encode_file, List.map_cons, List.flatten_cons] at ih ⊢
    rw [unchunk_append, ← ih, encode_record_eq_unchunk]

theorem record_chunks_map_fst (delim : Char) :
    ∀ r : List (List Char), r ≠ [] → (record_chunks delim r).map Prod.fst = r
  | [], h => absurd rfl h
  | [f], _ => by simp [record_chunks]
  | f :: g :: fs, _ => by
    have ih := record_chunks_map_fst delim (g :: fs) (by simp)
    rw [record_chunks, List.map_cons, ih]

theorem record_chunks_good (delim : Char) :
    ∀ r : List (List Char), (∀ f ∈ r, clean_field delim f = true) →
      ∀ p ∈ record_chunks delim r, clean_field delim p.1 = true ∧ (p.2 = '\n' ∨ p.2 = delim)
  | [], _ => by
    intro p hp
    simp only [record_chunks, List.mem_singleton] at hp
    subst hp
    simp [clean_field]
  | [f], h => by
    intro p hp
    simp only [record_chunks, List.mem_singleton] at hp
    subst hp
    exact ⟨h f (by simp), Or.inl rfl⟩
  | f :: g :: fs, h => by
    intro p hp
    have ih := record_chunks_good delim (g :: fs) (fun x hx => h x (List.mem_cons_of_mem _ hx))
    rw [record_chunks, List.mem_cons] at hp
    rcases hp with hp | hp
    · subst hp
      exact ⟨h f (by simp), Or.inr rfl⟩
    · exact ih p hp

theorem file_chunks_map_fst (delim : Char) (records : List (List (List Char)))
    (h : ∀ r ∈ records, r ≠ []) :
    ((records.map (record_chunks delim)).flatten).map Prod.fst = records.flatten := by
  induction records with
  | nil => simp
  | cons r rs ih =>
    simp only [List.map_cons, List.flatten_cons, List.map_append]
    rw [record_chunks_map_fst delim r (h r (by simp)),
      ih (fun x hx => h x (List.mem_cons_of_mem _ hx))]

theorem file_chunks_good (delim : Char) (records : List (List (List Char)))
    (h : ∀ r ∈ records, ∀ f ∈ r, clean_field delim f = true) :
    ∀ p ∈ (records.map (record_chunks delim)).flatten,
      clean_field delim p.1 = true ∧ (p.2 = '\n' ∨ p.2 = delim) := by
  intro p hp
  simp only [List.mem_flatten, List.mem_map] at hp
  obtain ⟨l, ⟨r, hr, rfl⟩, hpl⟩ := hp
  exact record_chunks_good delim r (h r hr) p hpl

theorem scan_offsets_clean (delim : Char) :
    ∀ (f : List Char) (i : Nat), clean_field delim f = true → scan_offsets delim f i = [] := by
  intro f
  induction f with
  | nil => intro i _; simp [scan_offsets]
  | cons b bs ih =>
    intro i h
    rw [clean_field_iff] at h
    have hb := h b (by simp)
    have hbs : clean_field delim bs = true := by
      rw [clean_field_iff]
      intro x hx
      exact h x (List.mem_cons_of_mem _ hx)
    simp [scan_offsets, hb.1, hb.2, ih (i + 1) hbs]

theorem scan_offsets_unchunk (delim : Char) :
    ∀ (ch : List (List Char × Char)) (i : Nat),
      (∀ p ∈ ch, clean_field delim p.1 = true ∧ (p.2 = '\n' ∨ p.2 = delim)) →
      scan_offsets delim (unchunk ch) i = offsets_of (ch.map Prod.fst) i := by
  intro ch
  induction ch with
  | nil => intro i _; simp [unchunk, scan_offsets, offsets_of]
  | cons p ch ih =>
    intro i h
    have hp := h p (by simp)
    have hch := ih (i + p.1.length + 1) (fun x hx => h x (List.mem_cons_of_mem _ hx))
    rw [unchunk_cons, scan_offsets_append, scan_offsets_clean delim p.1 i hp.1, List.nil_append,
      scan_offsets, if_pos hp.2, hch]
    simp [offsets_of]

theorem offsets_of_length : ∀ (fs : List (List Char)) (i : Nat),
    (offsets_of fs i).length = fs.length := by
  intro fs
  induction fs with
  | nil => intro i; simp [offsets_of]
  | cons f fs ih => intro i; simp [offsets_of, ih]

/-- Field `j` of a chunked layout starts at the offset `idx[j]`, is followed by
its separator at `idx[j + 1] - 1`, and its bytes are the bytes in between. -/
theorem offsets_of_lookup :
    ∀ (ch : List (List Char × Char)) (i j : Nat) (f : List Char),
      (ch.map Prod.fst)[j]? = some f →
      ∃ a, i ≤ a ∧ (i :: offsets_of (ch.map Prod.fst) i)[j]? = some a ∧
        (i :: offsets_of (ch.map Prod.fst) i)[j + 1]? = some (a + f.length + 1) ∧
        ((unchunk ch).drop (a - i)).take f.length = f ∧
        a + f.length + 1 ≤ i + (unchunk ch).length := by
  intro ch
  induction ch with
  | nil => intro i j f h; simp at h
  | cons p ch ih =>
    intro i j f h
    cases j with
    | zero =>
      simp only [List.map_cons, List.getElem?_cons_zero, Option.some.injEq] at h
      subst h
      refine ⟨i, le_refl _, by simp, by simp [offsets_of], ?_, ?_⟩
      · simp [unchunk_cons]
      · simp [unchunk_cons]; omega
    | succ j =>
      simp only [List.map_cons, List.getElem?_cons_succ] at h
      obtain ⟨a, ha1, ha2, ha3, ha4, ha5⟩ := ih (i + p.1.length + 1) j f h
      refine ⟨a, by omega, ?_, ?_, ?_, ?_⟩
      · simpa [offsets_of] using ha2
      · simpa [offsets_of] using ha3
      · rw [unchunk_cons]
        have e : a - i = (p.1 ++ [p.2]).length + (a - (i + p.1.length + 1)) := by
          simp; omega
        have e2 : p.1 ++ p.2 :: unchunk ch = (p.1 ++ [p.2]) ++ unchunk ch := by simp
        rw [e, e2, List.drop_append, ha4]
      · simp only [unchunk_cons, List.length_append, List.length_cons]
        omega

theorem flatten_lookup (C : Nat) :
    ∀ (records : List (List (List Char))) (r c : Nat), (∀ x ∈ records, x.length = C) → c < C →
      records.flatten[r * C + c]? = (records[r]?).bind (fun x => x[c]?) := by
  intro records
  induction records with
  | nil => intro r c _ _; simp
  | cons x xs ih =>
    intro r c h hc
    have hx : x.length = C := h x (by simp)
    cases r with
    | zero =>
      simp only [Nat.zero_mul, Nat.zero_add, List.flatten_cons, List.getElem?_cons_zero,
        Option.some_bind]
      rw [List.getElem?_append_left (by omega)]
    | succ r =>
      simp only [List.flatten_cons, List.getElem?_cons_succ]
      rw [List.getElem?_append_right (by rw [hx]; nlinarith)]
      have e : (r + 1) * C + c - x.length = r * C + c := by
        rw [hx, Nat.add_mul]; omega
      rw [e]
      exact ih r c (fun y hy => h y (List.mem_cons_of_mem _ hy)) hc

theorem flatten_length (C : Nat) :
    ∀ (records : List (List (List Char))), (∀ x ∈ records, x.length = C) →
      records.flatten.length = records.length * C := by
  intro records
  induction records with
  | nil => intro _; simp
  | cons x xs ih =>
    intro h
    have hx : x.length = C := h x (by simp)
    simp only [List.flatten_cons, List.length_append, List.length_cons, hx,
      ih (fun y hy => h y (List.mem_cons_of_mem _ hy)), Nat.add_mul]
    omega

/-- The first record is a run of bytes without a record separator, holding one
delimiter for each field but the last, and then the record separator. -/
theorem encode_record_first_newline (delim : Char) (hd : delim ≠ '\n') :
    ∀ r : List (List Char), r ≠ [] → (∀ f ∈ r, clean_field delim f = true) →
      ∃ pre, encode_record delim r = pre ++ ['\n'] ∧ '\n' ∉ pre ∧
        ∀ i, (scan_offsets delim pre i).length + 1 = r.length
  | [], h, _ => absurd rfl h
  | [f], _, hc => by
    have hf := hc f (by simp)
    refine ⟨f, by simp [encode_record], ?_, ?_⟩
    · intro hm
      exact ((clean_field_iff delim f).mp hf _ hm).2 rfl
    · intro i
      simp [scan_offsets_clean delim f i hf]
  | f :: g :: fs, _, hc => by
    have hf := hc f (by simp)
    obtain ⟨pre, h1, h2, h3⟩ := encode_record_first_newline delim hd (g :: fs) (by simp)
      (fun x hx => hc x (List.mem_cons_of_mem _ hx))
    refine ⟨f ++ delim :: pre, by simp [encode_record, h1], ?_, ?_⟩
    · intro hm
      simp only [List.mem_append, List.mem_cons] at hm
      rcases hm with hm | hm | hm
      · exact ((clean_field_iff delim f).mp hf _ hm).2 rfl
      · exact hd hm.symm
      · exact h2 hm
    · intro i
      rw [scan_offsets_append, scan_offsets_clean delim f i hf, List.nil_append, scan_offsets,
        if_pos (Or.inr rfl)]
      have := h3 (i + f.length + 1)
      simp only [List.length_cons] at this ⊢
      omega

/-! ## Proofs: the index of a well-formed file -/

theorem encode_file_cons (delim : Char) (r : List (List Char)) (rs : List (List (List Char))) :
    encode_file delim (r :: rs) = encode_record delim r ++ encode_file delim rs := by
  simp [encode_file]

theorem take_past_first_newline (pre tail : List Char) (n : Nat) (hn : pre.length + 1 ≤ n) :
    (pre ++ '\n' :: tail).take n = pre ++ '\n' :: tail.take (n - pre.length - 1) := by
  obtain ⟨m, rfl⟩ : ∃ m, n = pre.length + (m + 1) := ⟨n - pre.length - 1, by omega⟩
  rw [List.take_append]
  simp

/-- The offsets of a well-formed file: `0`, then one offset per field. -/
theorem scan_offsets_encode_file (delim : Char) (C : Nat) (records : List (List (List Char)))
    (h : well_formed delim C records = true) (i : Nat) :
    scan_offsets delim (encode_file delim records) i = offsets_of records.flatten i := by
  rw [well_formed_iff] at h
  have hne : ∀ r ∈ records, r ≠ [] := by
    intro r hr e
    have := (h.2 r hr).1
    rw [e] at this
    simp at this
    omega
  rw [encode_file_eq_unchunk, scan_offsets_unchunk delim _ i
    (file_chunks_good delim records (fun r hr => (h.2 r hr).2)),
    file_chunks_map_fst delim records hne]

/-- Worker 0 finds `C` columns when the first record fits in its naive span. -/
theorem columns_of_well_formed (delim : Char) (hd : delim ≠ '\n') (C : Nat)
    (r0 : List (List Char)) (rs : List (List (List Char)))
    (h : well_formed delim C (r0 :: rs) = true) (e : Nat)
    (hlen : (encode_file delim (r0 :: rs)).length < 2 ^ 31)
    (he : e ≤ (encode_file delim (r0 :: rs)).length)
    (hfit : (encode_record delim r0).length ≤ e) :
    (index_region_loop delim 0
      ((encode_file delim (r0 :: rs)).take (next_newline (encode_file delim (r0 :: rs)) e))
      0 [0] 0).2 = C := by
  have hsize : (encode_file delim (r0 :: rs)).length < SIZE_MOD := by rw [size_mod_eq]; omega
  have hge := le_next_newline _ e he hsize
  rw [well_formed_iff] at h
  have h0 := h.2 r0 (by simp)
  have hne : r0 ≠ [] := by
    intro e0
    have := h0.1
    rw [e0] at this
    simp at this
    omega
  obtain ⟨pre, h1, h2, h3⟩ := encode_record_first_newline delim hd r0 hne h0.2
  have hpre : pre.length + 1 ≤ e := by
    rw [h1] at hfit
    simpa using hfit
  have hfile : encode_file delim (r0 :: rs) = pre ++ '\n' :: encode_file delim rs := by
    rw [encode_file_cons, h1]
    simp
  rw [hfile] at hge ⊢
  rw [take_past_first_newline pre _ _ (by omega),
    index_region_loop_snd_first_newline delim pre _ 0 [0] h2 (by simp)]
  have := h3 0
  simp only [List.length_singleton]
  omega

theorem scan_offsets_length_le (delim : Char) :
    ∀ (cs : List Char) (i : Nat), (scan_offsets delim cs i).length ≤ cs.length := by
  intro cs
  induction cs with
  | nil => intro i; simp [scan_offsets]
  | cons c cs ih =>
    intro i
    have := ih (i + 1)
    by_cases h : c = '\n' ∨ c = delim
    · simp only [scan_offsets, h, if_true, List.length_cons]; omega
    · simp only [scan_offsets, h, if_false, List.length_cons]; omega

theorem well_formed_cells_le (delim : Char) (C : Nat) (records : List (List (List Char)))
    (h : well_formed delim C records = true) :
    records.length * C ≤ (encode_file delim records).length := by
  have hf : records.flatten.length = records.length * C := by
    rw [well_formed_iff] at h
    exact flatten_length C records (fun x hx => (h.2 x hx).1)
  rw [← hf, ← offsets_of_length records.flatten 0, ← scan_offsets_encode_file delim C records h 0]
  exact scan_offsets_length_le delim _ 0

theorem rows_of_columns_ge_two (R C : Nat) (hC : 2 ≤ C) : (R * C + 1) / C = R := by
  rw [Nat.add_div (by omega)]
  have h1 : R * C / C = R := Nat.mul_div_cancel R (by omega)
  have h2 : 1 / C = 0 := Nat.div_eq_of_lt (by omega)
  have h3 : R * C % C = 0 := Nat.mul_mod_left R C
  have h4 : 1 % C = 1 := Nat.mod_eq_of_lt (by omega)
  rw [h1, h2, h3, h4]
  simp
  omega

theorem index_spans_shape (n k : Nat) (hk1 : 1 ≤ k) (hk2 : k ≤ 2 ^ 31) :
    ∃ e rest, parallel_for_spans n k = (0, e) :: rest ∧ rest.length + 1 ≤ 2 ^ 31 ∧
      contiguous 0 ((0, e) :: rest) n = true ∧ e = (if k = 1 then n else n / k) := by
  by_cases h1 : k = 1
  · subst h1
    exact ⟨n, [], parallel_for_spans_one n, by simp, by simp [contiguous], by simp⟩
  · obtain ⟨rest, hrest⟩ := parallel_for_spans_head n k (by omega)
    have hcont := parallel_for_spans_contiguous n k hk1
    have hlen := parallel_for_spans_length n k
    rw [hrest] at hcont hlen
    simp only [List.length_cons] at hlen
    exact ⟨n / k, rest, hrest, by omega, hcont, by simp [h1]⟩

/-- The workers on a well-formed file, whatever the contiguous spans, provided
that the first record fits in the span of worker 0: they find `C` columns and
merge offset `0` and one offset per field. -/
theorem workers_well_formed (delim : Char) (hd : delim ≠ '\n') (C : Nat)
    (r0 : List (List Char)) (rs : List (List (List Char)))
    (h : well_formed delim C (r0 :: rs) = true)
    (e : Nat) (rest : List (Nat × Nat))
    (hlen : (encode_file delim (r0 :: rs)).length < 2 ^ 31)
    (hl : rest.length + 1 ≤ 2 ^ 31)
    (hc : contiguous 0 ((0, e) :: rest) (encode_file delim (r0 :: rs)).length = true)
    (hfit : (encode_record delim r0).length ≤ e) :
    ∃ vs, run_workers (encode_file delim (r0 :: rs)) delim ((0, e) :: rest) 0 0 = some (vs, C) ∧
      vs.flatten = 0 :: offsets_of (r0 :: rs).flatten 0 := by
  have he : e ≤ (encode_file delim (r0 :: rs)).length := by
    have hc2 := hc
    simp only [contiguous, Bool.and_eq_true, decide_eq_true_eq] at hc2
    exact contiguous_le rest e _ hc2.2
  obtain ⟨vs, h1, h2⟩ := run_workers_zero (encode_file delim (r0 :: rs)) delim hlen e rest hl hc
  rw [columns_of_well_formed delim hd C r0 rs h e hlen he hfit] at h1
  rw [scan_offsets_encode_file delim C (r0 :: rs) h 0] at h2
  exact ⟨vs, h1, h2⟩

theorem well_formed_offsets_length (delim : Char) (C : Nat)
    (r0 : List (List Char)) (rs : List (List (List Char)))
    (h : well_formed delim C (r0 :: rs) = true) :
    (0 :: offsets_of (r0 :: rs).flatten 0).length = (rs.length + 1) * C + 1 := by
  rw [well_formed_iff] at h
  rw [List.length_cons, offsets_of_length, flatten_length C (r0 :: rs) (fun x hx => (h.2 x hx).1)]
  simp

/-- The constructor on a well-formed file whose first record fits in the span
of worker 0: unless `reserve` throws, it returns the index with `C` columns. -/
theorem build_cases_well_formed (delim : Char) (hd : delim ≠ '\n') (C : Nat)
    (r0 : List (List Char)) (rs : List (List (List Char)))
    (h : well_formed delim C (r0 :: rs) = true) (has_header : Bool)
    (e : Nat) (rest : List (Nat × Nat))
    (hlen : (encode_file delim (r0 :: rs)).length < 2 ^ 31)
    (hl : rest.length + 1 ≤ 2 ^ 31)
    (hc : contiguous 0 ((0, e) :: rest) (encode_file delim (r0 :: rs)).length = true)
    (hfit : (encode_record delim r0).length ≤ e) :
    index.build (encode_file delim (r0 :: rs)) delim has_header ((0, e) :: rest) = none ∨
    index.build (encode_file delim (r0 :: rs)) delim has_header ((0, e) :: rest) =
      some {
        mmap_ := encode_file delim (r0 :: rs)
        idx_ := 0 :: offsets_of (r0 :: rs).flatten 0
        has_header_ := has_header
        columns_ := C
        rows_ :=
          if has_header then (((rs.length + 1) * C + 1) / C + SIZE_MOD - 1) % SIZE_MOD
          else ((rs.length + 1) * C + 1) / C } := by
  obtain ⟨vs, h1, h2⟩ := workers_well_formed delim hd C r0 rs h e rest hlen hl hc hfit
  have hC : C ≠ 0 := by
    rw [well_formed_iff] at h
    omega
  have hcount := well_formed_offsets_length delim C r0 rs h
  rw [← h2] at hcount
  unfold index.build
  rw [h1]
  by_cases hres : MAX_SIZE < to_size_t (total_size vs)
  · left
    simp [hres]
  · right
    simp only [hres, hC, if_false, hcount]
    rw [h2]

/-- The index that the constructor builds for a well-formed file with fewer
than `2 ^ 31` merged offsets, whatever the contiguous spans, provided that the
first record fits in the span of worker 0. -/
theorem build_well_formed (delim : Char) (hd : delim ≠ '\n') (C : Nat)
    (r0 : List (List Char)) (rs : List (List (List Char)))
    (h : well_formed delim C (r0 :: rs) = true) (has_header : Bool)
    (e : Nat) (rest : List (Nat × Nat))
    (hlen : (encode_file delim (r0 :: rs)).length < 2 ^ 31)
    (hoff : (rs.length + 1) * C + 1 < 2 ^ 31)
    (hl : rest.length + 1 ≤ 2 ^ 31)
    (hc : contiguous 0 ((0, e) :: rest) (encode_file delim (r0 :: rs)).length = true)
    (hfit : (encode_record delim r0).length ≤ e) :
    index.build (encode_file delim (r0 :: rs)) delim has_header ((0, e) :: rest) =
      some {
        mmap_ := encode_file delim (r0 :: rs)
        idx_ := 0 :: offsets_of (r0 :: rs).flatten 0
        has_header_ := has_header
        columns_ := C
        rows_ :=
          if has_header then (((rs.length + 1) * C + 1) / C + SIZE_MOD - 1) % SIZE_MOD
          else ((rs.length + 1) * C + 1) / C } := by
  obtain ⟨vs, h1, h2⟩ := workers_well_formed delim hd C r0 rs h e rest hlen hl hc hfit
  have hC : C ≠ 0 := by
    rw [well_formed_iff] at h
    omega
  have hcount := well_formed_offsets_length delim C r0 rs h
  rw [← h2] at hcount
  rw [build_of_workers _ delim has_header _ vs C h1 (by omega) hC, hcount, h2]

/-- The spans that `index::index` hands to the workers: worker 0 starts at 0,
and a first record of `m` bytes fits in its span with one thread, below 32768
bytes, or when `m` is at most `file_size / num_threads`. -/
theorem index_eq_build (mmap_ : List Char) (delim : Char) (has_header : Bool)
    (skip num_threads m : Nat) (hm : m ≤ mmap_.length)
    (hk1 : 1 ≤ num_threads) (hk2 : num_threads ≤ 2 ^ 31)
    (hfit : mmap_.length < 32768 ∨ num_threads = 1 ∨ m ≤ mmap_.length / num_threads) :
    ∃ e rest, index.index mmap_ delim has_header skip num_threads =
        index.build mmap_ delim has_header ((0, e) :: rest) ∧
      rest.length + 1 ≤ 2 ^ 31 ∧ contiguous 0 ((0, e) :: rest) mmap_.length = true ∧ m ≤ e := by
  have hk : 1 ≤ (if mmap_.length < 32768 then 1 else num_threads) ∧
      (if mmap_.length < 32768 then 1 else num_threads) ≤ 2 ^ 31 := by
    split <;> omega
  obtain ⟨e, rest, h1, h2, h3, h4⟩ := index_spans_shape mmap_.length
    (if mmap_.length < 32768 then 1 else num_threads) hk.1 hk.2
  refine ⟨e, rest, ?_, h2, h3, ?_⟩
  · unfold index.index
    simp only [h1]
  · rw [h4]
    by_cases hsmall : mmap_.length < 32768
    · simp [hsmall, hm]
    · simp only [hsmall, if_false]
      by_cases hone : num_threads = 1
      · simp [hone, hm]
      · simp only [hone, if_false]
        rcases hfit with hx | hx | hx
        · exact absurd hx hsmall
        · exact absurd hx hone
        · exact hx

theorem encode_record_le_file (delim : Char) (r0 : List (List Char))
    (rs : List (List (List Char))) :
    (encode_record delim r0).length ≤ (encode_file delim (r0 :: rs)).length := by
  rw [encode_file_cons, List.length_append]
  omega

/-- What `index::index` does on a well-formed file when the first record fits
in the naive span of worker 0: unless `reserve` throws, it returns the index
with `C` columns. -/
theorem index_cases_well_formed (delim : Char) (hd : delim ≠ '\n') (C : Nat)
    (r0 : List (List Char)) (rs : List (List (List Char)))
    (h : well_formed delim C (r0 :: rs) = true) (has_header : Bool) (skip num_threads : Nat)
    (hlen : (encode_file delim (r0 :: rs)).length < 2 ^ 31)
    (hk1 : 1 ≤ num_threads) (hk2 : num_threads ≤ 2 ^ 31)
    (hfit : (encode_file delim (r0 :: rs)).length < 32768 ∨ num_threads = 1 ∨
      (encode_record delim r0).length ≤ (encode_file delim (r0 :: rs)).length / num_threads) :
    index.index (encode_file delim (r0 :: rs)) delim has_header skip num_threads = none ∨
    index.index (encode_file delim (r0 :: rs)) delim has_header skip num_threads =
      some {
        mmap_ := encode_file delim (r0 :: rs)
        idx_ := 0 :: offsets_of (r0 :: rs).flatten 0
        has_header_ := has_header
        columns_ := C
        rows_ :=
          if has_header then (((rs.length + 1) * C + 1) / C + SIZE_MOD - 1) % SIZE_MOD
          else ((rs.length + 1) * C + 1) / C } := by
  obtain ⟨e, rest, h1, h2, h3, h4⟩ := index_eq_build (encode_file delim (r0 :: rs)) delim
    has_header skip num_threads (encode_record delim r0).length
    (encode_record_le_file delim r0 rs) hk1 hk2 hfit
  rw [h1]
  exact build_cases_well_formed delim hd C r0 rs h has_header e rest hlen h2 h3 h4

/-- The index that `index::index` builds for a well-formed file with fewer than
`2 ^ 31` merged offsets, when the first record fits in the naive span of
worker 0: always so with one thread, hence for every file of fewer than 32768
bytes. -/
theorem index_well_formed (delim : Char) (hd : delim ≠ '\n') (C : Nat)
    (r0 : List (List Char)) (rs : List (List (List Char)))
    (h : well_formed delim C (r0 :: rs) = true) (has_header : Bool) (skip num_threads : Nat)
    (hlen : (encode_file delim (r0 :: rs)).length < 2 ^ 31)
    (hoff : (rs.length + 1) * C + 1 < 2 ^ 31)
    (hk1 : 1 ≤ num_threads) (hk2 : num_threads ≤ 2 ^ 31)
    (hfit : (encode_file delim (r0 :: rs)).length < 32768 ∨ num_threads = 1 ∨
      (encode_record delim r0).length ≤ (encode_file delim (r0 :: rs)).length / num_threads) :
    index.index (encode_file delim (r0 :: rs)) delim has_header skip num_threads =
      some {
        mmap_ := encode_file delim (r0 :: rs)
        idx_ := 0 :: offsets_of (r0 :: rs).flatten 0
        has_header_ := has_header
        columns_ := C
        rows_ :=
          if has_header then (((rs.length + 1) * C + 1) / C + SIZE_MOD - 1) % SIZE_MOD
          else ((rs.length + 1) * C + 1) / C } := by
  obtain ⟨e, rest, h1, h2, h3, h4⟩ := index_eq_build (encode_file delim (r0 :: rs)) delim
    has_header skip num_threads (encode_record delim r0).length
    (encode_record_le_file delim r0 rs) hk1 hk2 hfit
  rw [h1]
  exact build_well_formed delim hd C r0 rs h has_header e rest hlen hoff h2 h3 h4

theorem rows_with_header (delim : Char) (C : Nat) (hC : 2 ≤ C)
    (r0 : List (List Char)) (rs : List (List (List Char)))
    (h : well_formed delim C (r0 :: rs) = true)
    (hlen : (encode_file delim (r0 :: rs)).length < 2 ^ 31) :
    (rs.length + 1 + SIZE_MOD - 1) % SIZE_MOD = rs.length := by
  have hR : rs.length < SIZE_MOD := by
    have hb := well_formed_cells_le delim C (r0 :: rs) h
    simp only [List.length_cons] at hb
    rw [size_mod_eq]
    nlinarith
  have e1 : rs.length + 1 + SIZE_MOD - 1 = rs.length + SIZE_MOD := by omega
  rw [e1, Nat.add_mod_right]
  exact Nat.mod_eq_of_lt hR

/-- Rows and columns of a well-formed file with at least two fields per record:
unless `reserve` throws, `columns() == C`, `rows() == R`, and `rows() == R - 1`
with a header. -/
theorem rows_columns_cases (delim : Char) (hd : delim ≠ '\n') (C : Nat) (hC : 2 ≤ C)
    (r0 : List (List Char)) (rs : List (List (List Char)))
    (h : well_formed delim C (r0 :: rs) = true) (has_header : Bool) (skip num_threads : Nat)
    (hlen : (encode_file delim (r0 :: rs)).length < 2 ^ 31)
    (hk1 : 1 ≤ num_threads) (hk2 : num_threads ≤ 2 ^ 31)
    (hfit : (encode_file delim (r0 :: rs)).length < 32768 ∨ num_threads = 1 ∨
      (encode_record delim r0).length ≤ (encode_file delim (r0 :: rs)).length / num_threads) :
    index.index (encode_file delim (r0 :: rs)) delim has_header skip num_threads = none ∨
    index.index (encode_file delim (r0 :: rs)) delim has_header skip num_threads =
      some {
        mmap_ := encode_file delim (r0 :: rs)
        idx_ := 0 :: offsets_of (r0 :: rs).flatten 0
        has_header_ := has_header
        columns_ := C
        rows_ := if has_header then rs.length else rs.length + 1 } := by
  rcases index_cases_well_formed delim hd C r0 rs h has_header skip num_threads hlen hk1 hk2
    hfit with h1 | h1
  · exact Or.inl h1
  · right
    rw [h1, rows_of_columns_ge_two (rs.length + 1) C hC, rows_with_header delim C hC r0 rs h hlen]

/-- Rows and columns of a well-formed file with at least two fields per record
and fewer than `2 ^ 31` merged offsets: `columns() == C`, `rows() == R`, and
`rows() == R - 1` with a header. -/
theorem rows_columns_well_formed (delim : Char) (hd : delim ≠ '\n') (C : Nat) (hC : 2 ≤ C)
    (r0 : List (List Char)) (rs : List (List (List Char)))
    (h : well_formed delim C (r0 :: rs) = true) (has_header : Bool) (skip num_threads : Nat)
    (hlen : (encode_file delim (r0 :: rs)).length < 2 ^ 31)
    (hoff : (rs.length + 1) * C + 1 < 2 ^ 31)
    (hk1 : 1 ≤ num_threads) (hk2 : num_threads ≤ 2 ^ 31)
    (hfit : (encode_file delim (r0 :: rs)).length < 32768 ∨ num_threads = 1 ∨
      (encode_record delim r0).length ≤ (encode_file delim (r0 :: rs)).length / num_threads) :
    index.index (encode_file delim (r0 :: rs)) delim has_header skip num_threads =
      some {
        mmap_ := encode_file delim (r0 :: rs)
        idx_ := 0 :: offsets_of (r0 :: rs).flatten 0
        has_header_ := has_header
        columns_ := C
        rows_ := if has_header then rs.length else rs.length + 1 } := by
  rw [index_well_formed delim hd C r0 rs h has_header skip num_threads hlen hoff hk1 hk2 hfit,
    rows_of_columns_ge_two (rs.length + 1) C hC, rows_with_header delim C hC r0 rs h hlen]

/-! ## Proofs: `index::get` -/

theorem get_of_lookup (x : vroom.index) (row col a v : Nat)
    (hi : (row + (if x.has_header_ then 1 else 0)) * x.columns_ + col + 1 < SIZE_MOD)
    (h1 : x.idx_[(row + (if x.has_header_ then 1 else 0)) * x.columns_ + col]? = some a)
    (h2 : x.idx_[(row + (if x.has_header_ then 1 else 0)) * x.columns_ + col + 1]? = some v)
    (hv : 1 ≤ v) (hv2 : v < SIZE_MOD) :
    x.get row col = some { begin_ := a, end_ := v - 1 } := by
  unfold index.get
  have e1 : ((row + (if x.has_header_ then 1 else 0)) * x.columns_ + col) % SIZE_MOD =
      (row + (if x.has_header_ then 1 else 0)) * x.columns_ + col := Nat.mod_eq_of_lt (by omega)
  have e2 : ((row + (if x.has_header_ then 1 else 0)) * x.columns_ + col + 1) % SIZE_MOD =
      (row + (if x.has_header_ then 1 else 0)) * x.columns_ + col + 1 := Nat.mod_eq_of_lt hi
  have e3 : (v + SIZE_MOD - 1) % SIZE_MOD = v - 1 := by
    have : v + SIZE_MOD - 1 = v - 1 + SIZE_MOD := by omega
    rw [this, Nat.add_mod_right]
    exact Nat.mod_eq_of_lt (by omega)
  simp only [e1, e2, h1, h2, e3]

/-- Round trip of `get` for a well-formed file with at least two fields per
record: for every `row < rows()` and `col < columns()`, the cell returned by
`get` spans exactly the bytes of field `col` of record `row` (`row + 1` with a
header), which hold no delimiter and no record separator. -/
theorem get_round_trip (delim : Char) (hd : delim ≠ '\n') (C : Nat) (hC : 2 ≤ C)
    (r0 : List (List Char)) (rs : List (List (List Char)))
    (h : well_formed delim C (r0 :: rs) = true) (has_header : Bool) (skip num_threads : Nat)
    (hlen : (encode_file delim (r0 :: rs)).length < 2 ^ 31)
    (hk1 : 1 ≤ num_threads) (hk2 : num_threads ≤ 2 ^ 31)
    (hfit : (encode_file delim (r0 :: rs)).length < 32768 ∨ num_threads = 1 ∨
      (encode_record delim r0).length ≤ (encode_file delim (r0 :: rs)).length / num_threads)
    (x : vroom.index)
    (hx : index.index (encode_file delim (r0 :: rs)) delim has_header skip num_threads = some x)
    (row col : Nat) (hrow : row < x.num_rows) (hcol : col < x.num_columns) :
    ∃ f c, ((r0 :: rs)[row + (if has_header then 1 else 0)]?).bind (fun r => r[col]?) = some f ∧
      x.get row col = some c ∧ c.bytes (encode_file delim (r0 :: rs)) = f ∧
      '\n' ∉ f ∧ delim ∉ f := by
  rcases rows_columns_cases delim hd C hC r0 rs h has_header skip num_threads hlen hk1 hk2
    hfit with hnone | hsome
  · rw [hnone] at hx
    simp at hx
  rw [hsome] at hx
  have hx2 := (Option.some.inj hx).symm
  subst hx2
  simp only [index.num_rows, index.num_columns] at hrow hcol
  have hwf := (well_formed_iff delim C (r0 :: rs)).mp h
  have hlenC : ∀ r ∈ r0 :: rs, r.length = C := fun r hr => (hwf.2 r hr).1
  have hne : ∀ r ∈ r0 :: rs, r ≠ [] := by
    intro r hr e
    have := hlenC r hr
    rw [e] at this
    simp at this
    omega
  have hR : row + (if has_header then 1 else 0) < (r0 :: rs).length := by
    cases has_header <;> simp at hrow ⊢ <;> omega
  have hflat := flatten_lookup C (r0 :: rs) (row + (if has_header then 1 else 0)) col hlenC hcol
  obtain ⟨r, hr⟩ : ∃ r, (r0 :: rs)[row + (if has_header then 1 else 0)]? = some r :=
    ⟨_, List.getElem?_eq_getElem hR⟩
  have hrmem : r ∈ r0 :: rs := List.getElem?_mem hr
  obtain ⟨f, hf⟩ : ∃ f, r[col]? = some f :=
    ⟨_, List.getElem?_eq_getElem (by rw [hlenC r hrmem]; exact hcol)⟩
  have hfmem : f ∈ r := List.getElem?_mem hf
  have hclean := (clean_field_iff delim f).mp ((hwf.2 r hrmem).2 f hfmem)
  rw [hr, Option.some_bind, hf] at hflat
  rw [← file_chunks_map_fst delim (r0 :: rs) hne] at hflat
  obtain ⟨a, _, ha2, ha3, ha4, ha5⟩ := offsets_of_lookup _ 0 _ f hflat
  rw [file_chunks_map_fst delim (r0 :: rs) hne] at ha2 ha3
  rw [← encode_file_eq_unchunk] at ha4 ha5
  simp only [Nat.sub_zero, Nat.zero_add] at ha4 ha5
  have hsz : (encode_file delim (r0 :: rs)).length < SIZE_MOD := by rw [size_mod_eq]; omega
  have hcells := well_formed_cells_le delim C (r0 :: rs) h
  have hi : (row + (if has_header then 1 else 0)) * C + col < (r0 :: rs).length * C := by
    have : (row + (if has_header then 1 else 0) + 1) * C ≤ (r0 :: rs).length * C :=
      Nat.mul_le_mul_right C hR
    rw [Nat.add_mul] at this
    omega
  refine ⟨f, { begin_ := a, end_ := a + f.length }, ?_, ?_, ?_, ?_, ?_⟩
  · rw [hr, Option.some_bind, hf]
  · have := get_of_lookup
      { mmap_ := encode_file delim (r0 :: rs), idx_ := 0 :: offsets_of (r0 :: rs).flatten 0,
        has_header_ := has_header, columns_ := C,
        rows_ := if has_header then rs.length else rs.length + 1 }
      row col a (a + f.length + 1) (by simp only; omega) ha2 ha3 (by omega) (by omega)
    simpa using this
  · simp only [cell.bytes]
    have : a + f.length - a = f.length := by omega
    rw [this, ha4]
  · intro hm
    exact (hclean _ hm).2 rfl
  · intro hm
    exact (hclean _ hm).1 rfl

/-- C5: for `start <= size`, `find_next_newline(buffer, start)` returns the
least position `p >= start` that holds a record separator when there is one
(`start <= p < size`, `buffer[p] == '\n'`, none in `[start, p)`), and `start`
unchanged when there is none in `[start, size)`; the result is always in
`[start, size]`. -/
theorem find_next_newline_least (mmap_ : List Char) (start : Nat)
    (hs : start ≤ mmap_.length) (hsize : mmap_.length < SIZE_MOD) :
    ∃ r, find_next_newline mmap_ start = some r ∧
      ((∃ p, start ≤ p ∧ mmap_[p]? = some '\n') →
        start ≤ r ∧ r < mmap_.length ∧ mmap_[r]? = some '\n' ∧
        ∀ q, start ≤ q → q < r → mmap_[q]? ≠ some '\n') ∧
      ((∀ p, start ≤ p → p < mmap_.length → mmap_[p]? ≠ some '\n') → r = start) ∧
      start ≤ r ∧ r ≤ mmap_.length := by
  refine ⟨next_newline mmap_ start, find_next_newline_eq_some mmap_ start hs, ?_⟩
  rcases next_newline_cases mmap_ start hs hsize with ⟨h1, h2⟩ | ⟨h1, h2, h3, h4⟩
  · refine ⟨?_, fun _ => h1, by omega, by omega⟩
    rintro ⟨p, hp1, hp2⟩
    exact absurd hp2 (h2 p hp1)
  · refine ⟨fun _ => ⟨h1, h2, h3, h4⟩, ?_, h1, by omega⟩
    intro hn
    exact absurd h3 (hn _ h1 h2)

/-- C5 on the file "a,b,c\n1,2,3\n4,5,6\n" from offset 7: the result is 11. -/
theorem find_next_newline_least_witness :
    find_next_newline scenario_file 7 = some 11 ∧
    ∃ r, find_next_newline scenario_file 7 = some r ∧
      ((∃ p, 7 ≤ p ∧ scenario_file[p]? = some '\n') →
        7 ≤ r ∧ r < scenario_file.length ∧ scenario_file[r]? = some '\n' ∧
        ∀ q, 7 ≤ q → q < r → scenario_file[q]? ≠ some '\n') ∧
      ((∀ p, 7 ≤ p → p < scenario_file.length → scenario_file[p]? ≠ some '\n') → r = 7) ∧
      7 ≤ r ∧ r ≤ scenario_file.length :=
  ⟨by decide, find_next_newline_least scenario_file 7 (by decide) (by decide)⟩

/-! ## Single-column files: the row count is one too many -/

/-- C1 (fails on the code): the single-column file "a\nb\n" is well formed,
with records "a" and "b"; built without a header it reports `rows() == 3` and
`columns() == 1`, so `get(2, 0)` is a call with `row < rows()` and
`col < columns()`, and it reads `idx_[3]` of the three offsets `[0, 2, 4]`:
there is no field to return. The cells of rows 0 and 1 are right. -/
theorem get_single_column_past_table :
    well_formed ',' 1 [["a".toList], ["b".toList]] = true ∧
    encode_file ',' [["a".toList], ["b".toList]] = "a\nb\n".toList ∧
    (index.index "a\nb\n".toList ',' false 0 1).map (fun x => (x.idx_, x.num_rows, x.num_columns)) =
      some ([0, 2, 4], 3, 1) ∧
    (index.index "a\nb\n".toList ',' false 0 1).map (fun x => x.get 2 0) = some none ∧
    (index.index "a\nb\n".toList ',' false 0 1).map
        (fun x => (x.get 0 0).map (cell.bytes "a\nb\n".toList)) = some (some "a".toList) ∧
    (index.index "a\nb\n".toList ',' false 0 1).map
        (fun x => (x.get 1 0).map (cell.bytes "a\nb\n".toList)) = some (some "b".toList) := by
  decide

/-- C3 (fails on the code): with a header, the single-column file "a\nb\n" of
`R = 2` records reports `rows() == 2`, not `R - 1 == 1`, and `get(1, 0)` reads past
the offsets; the one-record file "a\n" reports `rows() == 1` and its `get(0, 0)`
reads past the offsets, where no second record exists. -/
theorem header_single_column_rows :
    (index.index "a\nb\n".toList ',' true 0 1).map (fun x => (x.idx_, x.num_rows, x.num_columns)) =
      some ([0, 2, 4], 2, 1) ∧
    (index.index "a\nb\n".toList ',' true 0 1).map (fun x => x.get 1 0) = some none ∧
    (index.index "a\n".toList ',' true 0 1).map (fun x => (x.idx_, x.num_rows, x.num_columns)) =
      some ([0, 2], 1, 1) ∧
    (index.index "a\n".toList ',' true 0 1).map (fun x => x.get 0 0) = some none := by
  decide

/-- The header is skipped at lookup time only: on one file, `get(r, c)` of the
index built with a header is `get(r + 1, c)` of the index built without. -/
theorem get_header_shift (mmap_ : List Char) (delim : Char) (skip num_threads : Nat)
    (xh xn : vroom.index)
    (hh : index.index mmap_ delim true skip num_threads = some xh)
    (hn : index.index mmap_ delim false skip num_threads = some xn) (r c : Nat) :
    xh.get r c = xn.get (r + 1) c := by
  unfold index.index at hh hn
  obtain ⟨vs, c1, hw, _, _, h1, h2, h3, _⟩ := build_eq_some _ _ _ _ _ hh
  obtain ⟨vs2, c2, gw, _, _, g1, g2, g3, _⟩ := build_eq_some _ _ _ _ _ hn
  rw [hw] at gw
  have e := Prod.mk.inj (Option.some.inj gw)
  unfold index.get
  rw [h1, h2, h3, g1, g2, g3, e.1, e.2]
  simp

/-! ## Malformed files -/

/-- C7 (fails on the code): the file "a,b\nc\n", whose second record has one
field, gives the offsets `[0, 2, 4, 6]`, `columns() == 2` and `rows() == 2`; for
`get(1, 1)` the linear index is `i = 3` and `idx_[i + 1]` does not exist. -/
theorem get_past_table_malformed :
    (index.index "a,b\nc\n".toList ',' false 0 1).map
      (fun x => (x.idx_, x.num_rows, x.num_columns)) = some ([0, 2, 4, 6], 2, 2) ∧
    (index.index "a,b\nc\n".toList ',' false 0 1).map (fun x => x.get 1 1) = some none := by
  decide

/-- C2 (fails on the code): for every well-formed single-column file of `R`
records built without a header, `columns() == 1` and `rows() == R + 1`, one more
than the number of records: the offset `0` pushed by worker 0 makes
`len(idx) == R + 1`, and `rows` is `len(idx) / 1`. -/
theorem rows_single_column (delim : Char) (hd : delim ≠ '\n')
    (r0 : List (List Char)) (rs : List (List (List Char)))
    (h : well_formed delim 1 (r0 :: rs) = true) (skip num_threads : Nat)
    (hlen : (encode_file delim (r0 :: rs)).length < 2 ^ 31)
    (hoff : (r0 :: rs).length + 1 < 2 ^ 31)
    (hk1 : 1 ≤ num_threads) (hk2 : num_threads ≤ 2 ^ 31)
    (hfit : (encode_file delim (r0 :: rs)).length < 32768 ∨ num_threads = 1 ∨
      (encode_record delim r0).length ≤ (encode_file delim (r0 :: rs)).length / num_threads) :
    (index.index (encode_file delim (r0 :: rs)) delim false skip num_threads).map
      (fun x => (x.num_columns, x.num_rows, x.idx_.length)) =
      some (1, (r0 :: rs).length + 1, (r0 :: rs).length + 1) := by
  rw [index_well_formed delim hd 1 r0 rs h false skip num_threads hlen
    (by simpa using hoff) hk1 hk2 hfit]
  have hflat : (r0 :: rs).flatten.length = (r0 :: rs).length * 1 := by
    rw [well_formed_iff] at h
    exact flatten_length 1 (r0 :: rs) (fun x hx => (h.2 x hx).1)
  simp only [List.length_cons, Nat.mul_one] at hflat
  simp only [Option.map_some', index.num_columns, index.num_rows, List.length_cons,
    offsets_of_length, hflat, Bool.false_eq_true, if_false, Nat.mul_one, Nat.div_one]

/-- C2 on the file "a\nb\n": two records, `rows() == 3`. -/
theorem rows_single_column_witness :
    encode_file ',' [["a".toList], ["b".toList]] = "a\nb\n".toList ∧
    (index.index (encode_file ',' [["a".toList], ["b".toList]]) ',' false 0 1).map
      (fun x => (x.num_columns, x.num_rows, x.idx_.length)) = some (1, 3, 3) :=
  ⟨by decide,
    rows_single_column ',' (by decide) ["a".toList] [["b".toList]] (by decide) 0 1 (by decide)
      (by decide) (by decide) (by decide) (Or.inl (by decide))⟩

/-! ## Proofs: `get` stays inside the offset table -/

theorem index_region_loop_snd_le (delim : Char) (id : Nat) :
    ∀ (cs : List Char) (i : Nat) (destination : List Nat) (columns_ : Nat),
      columns_ ≤ destination.length →
      (index_region_loop delim id cs i destination columns_).2 ≤
        (index_region_loop delim id cs i destination columns_).1.length := by
  intro cs
  induction cs with
  | nil => intro i d c h; simpa [index_region_loop] using h
  | cons b bs ih =>
    intro i d c h
    by_cases h1 : b = '\n'
    · simp only [index_region_loop, h1, if_true]
      apply ih
      simp only [List.length_append, List.length_singleton]
      split <;> omega
    · by_cases h2 : b = delim
      · subst h2
        simp only [index_region_loop, h1, if_true, if_false]
        apply ih
        simp only [List.length_append, List.length_singleton]
        omega
      · simp only [index_region_loop, h1, h2, if_false]
        exact ih _ _ _ h

/-- The column count that worker 0 finds is at most the number of merged
offsets. -/
theorem columns_le_offsets (delim : Char) (mmap_ : List Char) (n : Nat) :
    (index_region_loop delim 0 (mmap_.take n) 0 [0] 0).2 ≤
      (0 :: scan_offsets delim mmap_ 0).length := by
  have h1 := index_region_loop_snd_le delim 0 (mmap_.take n) 0 [0] 0 (by simp)
  rw [index_region_loop_fst] at h1
  have h2 : scan_offsets delim mmap_ 0 =
      scan_offsets delim (mmap_.take n) 0 ++
        scan_offsets delim (mmap_.drop n) (0 + (mmap_.take n).length) := by
    rw [← scan_offsets_append, List.take_append_drop]
  rw [h2]
  simp only [List.length_append, List.length_cons, List.length_nil] at h1 ⊢
  omega

theorem idx_sorted (delim : Char) (mmap_ : List Char) :
    (0 :: scan_offsets delim mmap_ 0).Pairwise (· < ·) := by
  rw [List.pairwise_cons]
  refine ⟨?_, scan_offsets_sorted delim mmap_ 0⟩
  intro v hv
  exact (scan_offsets_bounds delim mmap_ 0 v hv).1

theorem idx_le_length (delim : Char) (mmap_ : List Char) :
    ∀ v ∈ 0 :: scan_offsets delim mmap_ 0, v ≤ mmap_.length := by
  intro v hv
  rw [List.mem_cons] at hv
  rcases hv with hv | hv
  · omega
  · have := (scan_offsets_bounds delim mmap_ 0 v hv).2
    omega

theorem build_lookup_in_range (mmap_ : List Char) (delim : Char) (has_header : Bool)
    (spans : List (Nat × Nat)) (hlen : mmap_.length < 2 ^ 31) (hne : spans ≠ [])
    (hl : spans.length ≤ 2 ^ 31) (hc : contiguous 0 spans mmap_.length = true)
    (x : vroom.index) (hx : index.build mmap_ delim has_header spans = some x)
    (hrem : x.idx_.length % x.num_columns ≠ 0)
    (row col : Nat) (hrow : row < x.num_rows) (hcol : col < x.num_columns) :
    (row + (if has_header then 1 else 0)) * x.num_columns + col + 1 < x.idx_.length ∧
    ∃ cur nxt, x.idx_[(row + (if has_header then 1 else 0)) * x.num_columns + col]? = some cur ∧
      x.idx_[(row + (if has_header then 1 else 0)) * x.num_columns + col + 1]? = some nxt ∧
      cur ≤ nxt - 1 ∧ nxt - 1 ≤ mmap_.length ∧
      x.get row col = some { begin_ := cur, end_ := nxt - 1 } := by
  obtain ⟨vs, c, hw, hcols, _, hidx, hhdr, hcol2, hrows⟩ := build_eq_some _ _ _ _ _ hx
  have hshape : x.idx_ = 0 :: scan_offsets delim mmap_ 0 ∧ x.columns_ ≤ x.idx_.length := by
    cases spans with
    | nil => exact absurd rfl hne
    | cons p rest =>
      obtain ⟨s, e⟩ := p
      have hc2 := hc
      simp only [contiguous, Bool.and_eq_true, decide_eq_true_eq] at hc2
      have hs : s = 0 := hc2.1.1
      subst hs
      obtain ⟨vs2, g1, g2⟩ := run_workers_zero mmap_ delim hlen e rest (by simpa using hl) hc
      rw [hw] at g1
      have e2 := Prod.mk.inj (Option.some.inj g1)
      rw [hidx, hcol2, e2.1, e2.2, g2]
      exact ⟨rfl, columns_le_offsets delim mmap_ _⟩
  have hle := hshape.2
  have hidx := hshape.1
  have hcols : x.columns_ ≠ 0 := by rw [hcol2]; exact hcols
  simp only [index.num_columns, index.num_rows] at hrem hrow hcol ⊢
  have hcpos : 0 < x.columns_ := by omega
  have hL : x.idx_.length ≤ mmap_.length + 1 := by
    rw [hidx, List.length_cons]
    have := scan_offsets_length_le delim mmap_ 0
    omega
  have hq1 : 1 ≤ x.idx_.length / x.columns_ := Nat.div_pos hle hcpos
  have hq2 : x.idx_.length / x.columns_ ≤ x.idx_.length := Nat.div_le_self _ _
  have hdm := Nat.div_add_mod x.idx_.length x.columns_
  have hrow2 : row + (if has_header then 1 else 0) + 1 ≤ x.idx_.length / x.columns_ := by
    rw [hrows] at hrow
    cases has_header
    · simp at hrow ⊢; omega
    · simp only [if_true] at hrow ⊢
      have e : (x.idx_.length / x.columns_ + SIZE_MOD - 1) % SIZE_MOD =
          x.idx_.length / x.columns_ - 1 := by
        have : x.idx_.length / x.columns_ + SIZE_MOD - 1 =
            x.idx_.length / x.columns_ - 1 + SIZE_MOD := by omega
        rw [this, Nat.add_mod_right]
        exact Nat.mod_eq_of_lt (by rw [size_mod_eq]; omega)
      rw [e] at hrow
      omega
  have hmul : (row + (if has_header then 1 else 0) + 1) * x.columns_ ≤
      x.columns_ * (x.idx_.length / x.columns_) := by
    rw [Nat.mul_comm x.columns_]
    exact Nat.mul_le_mul_right _ hrow2
  rw [Nat.add_mul, Nat.one_mul] at hmul
  have hi : (row + (if has_header then 1 else 0)) * x.columns_ + col + 1 < x.idx_.length := by
    omega
  refine ⟨hi, ?_⟩
  have hs := idx_sorted delim mmap_
  rw [← hidx, List.pairwise_iff_getElem] at hs
  have hlt := hs _ _ (by omega) hi (Nat.lt_succ_self _)
  have hb := idx_le_length delim mmap_
  rw [← hidx] at hb
  have hb2 := hb _ (List.getElem_mem hi)
  refine ⟨_, _, List.getElem?_eq_getElem (by omega), List.getElem?_eq_getElem hi, by omega,
    by omega, ?_⟩
  have := get_of_lookup x row col _ _ (by rw [hhdr, size_mod_eq]; omega)
    (by rw [hhdr]; exact List.getElem?_eq_getElem (by omega))
    (by rw [hhdr]; exact List.getElem?_eq_getElem hi) (by omega) (by rw [size_mod_eq]; omega)
  exact this

/-- C7 (amended): for every index that the constructor produces from a file
that ends with a record separator, when the merged offset count is not
divisible by the column count (as for every well-formed file with at least two
fields per record), every `row < rows()` and `col < columns()` give a linear
index `i` with `i + 1 < len(idx)`, so `idx[i]` and `idx[i + 1]` exist, and
`idx[i] <= idx[i + 1] - 1 <= file_size`: `get` returns that span. -/
theorem get_in_table (mmap_ : List Char) (delim : Char) (has_header : Bool)
    (skip num_threads : Nat) (hlen : mmap_.length < 2 ^ 31)
    (_hnl : mmap_.getLast? = some '\n') (hk1 : 1 ≤ num_threads) (hk2 : num_threads ≤ 2 ^ 31)
    (x : vroom.index) (hx : index.index mmap_ delim has_header skip num_threads = some x)
    (hrem : x.idx_.length % x.num_columns ≠ 0)
    (row col : Nat) (hrow : row < x.num_rows) (hcol : col < x.num_columns) :
    (row + (if has_header then 1 else 0)) * x.num_columns + col + 1 < x.idx_.length ∧
    ∃ cur nxt, x.idx_[(row + (if has_header then 1 else 0)) * x.num_columns + col]? = some cur ∧
      x.idx_[(row + (if has_header then 1 else 0)) * x.num_columns + col + 1]? = some nxt ∧
      cur ≤ nxt - 1 ∧ nxt - 1 ≤ mmap_.length ∧
      x.get row col = some { begin_ := cur, end_ := nxt - 1 } := by
  unfold index.index at hx
  have hk : 1 ≤ (if mmap_.length < 32768 then 1 else num_threads) ∧
      (if mmap_.length < 32768 then 1 else num_threads) ≤ 2 ^ 31 := by
    split <;> omega
  exact build_lookup_in_range mmap_ delim has_header _ hlen
    (parallel_for_spans_ne_nil _ _ hk.1)
    (by rw [parallel_for_spans_length]; exact hk.2)
    (parallel_for_spans_contiguous _ _ hk.1) x hx hrem row col hrow hcol

/-- C7 on the scenario file, built with a header: `get(1, 2)` reads `idx[8]`
and `idx[9]` of the 10 offsets. -/
theorem get_in_table_witness :
    index.index scenario_file ',' true 0 4 = some scenario_index ∧
    ((1 + (if true then 1 else 0)) * scenario_index.num_columns + 2 + 1 <
        scenario_index.idx_.length ∧
      ∃ cur nxt,
        scenario_index.idx_[(1 + (if true then 1 else 0)) * scenario_index.num_columns + 2]? =
          some cur ∧
        scenario_index.idx_[(1 + (if true then 1 else 0)) * scenario_index.num_columns + 2 + 1]? =
          some nxt ∧
        cur ≤ nxt - 1 ∧ nxt - 1 ≤ scenario_file.length ∧
        scenario_index.get 1 2 = some { begin_ := cur, end_ := nxt - 1 }) :=
  ⟨by decide,
    get_in_table scenario_file ',' true 0 4 (by decide) (by decide) (by decide) (by decide)
      scenario_index (by decide) (by decide) 1 2 (by decide) (by decide)⟩

/-! ## Proofs: the aligned regions -/

theorem contiguous_getElem : ∀ (spans : List (Nat × Nat)) (a b k s e : Nat),
    contiguous a spans b = true → spans[k]? = some (s, e) →
      a ≤ s ∧ s ≤ e ∧ e ≤ b ∧ (k = 0 → s = a) ∧ (k + 1 = spans.length → e = b) ∧
      ∀ s2 e2, spans[k + 1]? = some (s2, e2) → s2 = e := by
  intro spans
  induction spans with
  | nil => intro a b k s e _ h; simp at h
  | cons p rest ih =>
    intro a b k s e hc hk
    obtain ⟨s0, e0⟩ := p
    simp only [contiguous, Bool.and_eq_true, decide_eq_true_eq] at hc
    obtain ⟨⟨h1, h2⟩, h3⟩ := hc
    have h4 := contiguous_le rest e0 b h3
    cases k with
    | zero =>
      simp only [List.getElem?_cons_zero, Option.some.injEq, Prod.mk.injEq] at hk
      obtain ⟨rfl, rfl⟩ := hk
      refine ⟨by omega, h2, h4, fun _ => h1, ?_, ?_⟩
      · intro hl
        have : rest = [] := by
          apply List.length_eq_zero.mp
          simp only [List.length_cons] at hl
          omega
        subst this
        simpa [contiguous] using h3
      · intro s2 e2 hn
        simp only [List.getElem?_cons_succ] at hn
        cases rest with
        | nil => simp at hn
        | cons p2 rest2 =>
          simp only [List.getElem?_cons_zero, Option.some.injEq] at hn
          subst hn
          simp only [contiguous, Bool.and_eq_true, decide_eq_true_eq] at h3
          exact h3.1.1
    | succ k =>
      simp only [List.getElem?_cons_succ] at hk
      obtain ⟨g1, g2, g3, _, g5, g6⟩ := ih e0 b k s e h3 hk
      refine ⟨by omega, g2, g3, fun h => by omega, ?_, ?_⟩
      · intro hl
        apply g5
        simp only [List.length_cons] at hl
        omega
      · intro s2 e2 hn
        simp only [List.getElem?_cons_succ] at hn
        exact g6 s2 e2 hn

/-- C8 (amended): for every file and every split of `[0, file_size)` into
contiguous naive spans, the aligned region of each worker `k` is defined and
has `start <= end <= file_size`; worker 0 starts at 0; the last worker ends at
`file_size`; the aligned end of worker `k` is the aligned start of worker
`k + 1`, and this boundary is either the position of the first record separator
at or after the naive split point, or, when no record separator follows the
naive split point, the naive split point itself. -/
theorem aligned_regions_chain (mmap_ : List Char) (hlen : mmap_.length < 2 ^ 31)
    (spans : List (Nat × Nat)) (hl : spans.length ≤ 2 ^ 31)
    (hc : contiguous 0 spans mmap_.length = true)
    (k s e : Nat) (hk : spans[k]? = some (s, e)) :
    ∃ r, aligned_region mmap_ s e k = some r ∧
      r.1 ≤ r.2 ∧ r.2 ≤ mmap_.length ∧
      (k = 0 → r.1 = 0) ∧
      (k + 1 = spans.length → r.2 = mmap_.length) ∧
      ∀ s2 e2, spans[k + 1]? = some (s2, e2) →
        (∃ r2, aligned_region mmap_ s2 e2 (k + 1) = some r2 ∧ r2.1 = r.2) ∧
        ((mmap_[r.2]? = some '\n' ∧ e ≤ r.2 ∧
            ∀ q, e ≤ q → q < r.2 → mmap_[q]? ≠ some '\n') ∨
          (r.2 = e ∧ ∀ q, e ≤ q → mmap_[q]? ≠ some '\n')) := by
  have hsize : mmap_.length < SIZE_MOD := by rw [size_mod_eq]; omega
  obtain ⟨h1, h2, h3, h4, h5, h6⟩ := contiguous_getElem spans 0 mmap_.length k s e hc hk
  have hklt : k < spans.length := by
    by_contra hge
    rw [List.getElem?_eq_none (by omega)] at hk
    simp at hk
  have hreg : ∃ a, aligned_region mmap_ s e k = some (a, next_newline mmap_ e) ∧
      a ≤ next_newline mmap_ e ∧ (k = 0 → a = 0) := by
    by_cases hk0 : k = 0
    · subst hk0
      refine ⟨s, aligned_region_zero mmap_ s e hlen h2 h3, ?_, fun _ => by omega⟩
      have := le_next_newline mmap_ e h3 hsize
      omega
    · exact ⟨next_newline mmap_ s, aligned_region_succ mmap_ s e k hlen h2 h3 hk0 (by omega),
        next_newline_mono mmap_ s e h2 h3 hsize, fun h => absurd h hk0⟩
  obtain ⟨a, ha1, ha2, ha3⟩ := hreg
  refine ⟨(a, next_newline mmap_ e), ha1, ha2, next_newline_le_length mmap_ e h3 hsize, ha3,
    ?_, ?_⟩
  · intro hlast
    show next_newline mmap_ e = mmap_.length
    rw [h5 hlast]
    exact next_newline_length mmap_ hsize
  · intro s2 e2 hn
    have hs2 := h6 s2 e2 hn
    subst hs2
    obtain ⟨g1, g2, g3, _, _, _⟩ := contiguous_getElem spans 0 mmap_.length (k + 1) s2 e2 hc hn
    have hk2 : k + 1 < spans.length := by
      by_contra hge
      rw [List.getElem?_eq_none (by omega)] at hn
      simp at hn
    refine ⟨⟨_, aligned_region_succ mmap_ s2 e2 (k + 1) hlen g2 g3 (by omega) (by omega), rfl⟩,
      ?_⟩
    rcases next_newline_cases mmap_ s2 h3 hsize with ⟨c1, c2⟩ | ⟨c1, _, c3, c4⟩
    · exact Or.inr ⟨c1, c2⟩
    · exact Or.inl ⟨c3, c1, c4⟩

/-- C8 on the scenario file split at offset 7: the boundary between the two
workers is offset 11, the record separator of the second record. -/
theorem aligned_regions_chain_witness :
    aligned_region scenario_file 0 7 0 = some (0, 11) ∧
    aligned_region scenario_file 7 18 1 = some (11, 18) ∧
    ∃ r, aligned_region scenario_file 0 7 0 = some r ∧
      r.1 ≤ r.2 ∧ r.2 ≤ scenario_file.length ∧
      (0 = 0 → r.1 = 0) ∧
      (0 + 1 = [(0, 7), (7, 18)].length → r.2 = scenario_file.length) ∧
      ∀ s2 e2, [(0, 7), (7, 18)][0 + 1]? = some (s2, e2) →
        (∃ r2, aligned_region scenario_file s2 e2 (0 + 1) = some r2 ∧ r2.1 = r.2) ∧
        ((scenario_file[r.2]? = some '\n' ∧ 7 ≤ r.2 ∧
            ∀ q, 7 ≤ q → q < r.2 → scenario_file[q]? ≠ some '\n') ∨
          (r.2 = 7 ∧ ∀ q, 7 ≤ q → scenario_file[q]? ≠ some '\n')) :=
  ⟨by decide, by decide,
    aligned_regions_chain scenario_file (by decide) [(0, 7), (7, 18)] (by decide) (by decide)
      0 0 7 (by decide)⟩

theorem unterminated_file_length : unterminated_file.length = 32768 := by
  rw [unterminated_file, List.length_append, List.length_replicate]
  rfl

theorem unterminated_file_tail (q : Nat) (hq : 4 ≤ q) : unterminated_file[q]? ≠ some '\n' := by
  unfold unterminated_file
  rw [List.getElem?_append_right (by simpa using hq), List.getElem?_replicate]
  split
  · intro h
    exact absurd (Option.some.inj h) (by decide)
  · simp

/-- C8 (fails on the code): in the file of 32768 bytes "a,b\n" followed by
32764 bytes `c`, split for two threads at offset 16384, no record separator
follows the split point: `find_next_newline` returns 16384 unchanged, worker 0
ends and worker 1 starts at 16384, and the byte there is `c`, not a record
separator; the last record is split across the two workers. -/
theorem boundary_not_a_record_separator :
    unterminated_file.length = 32768 ∧
    parallel_for_spans 32768 2 = [(0, 16384), (16384, 32768)] ∧
    find_next_newline unterminated_file 16384 = some 16384 ∧
    aligned_region unterminated_file 0 16384 0 = some (0, 16384) ∧
    aligned_region unterminated_file 16384 32768 1 = some (16384, 32768) ∧
    unterminated_file[16384]? = some 'c' := by
  have hsize : unterminated_file.length < SIZE_MOD := by
    rw [unterminated_file_length]; decide
  have hf : next_newline unterminated_file 16384 = 16384 := by
    rcases next_newline_cases unterminated_file 16384
      (by rw [unterminated_file_length]; omega) hsize with ⟨c1, _⟩ | ⟨c1, _, c3, _⟩
    · exact c1
    · exact absurd c3 (unterminated_file_tail _ (by omega))
  have hl : next_newline unterminated_file 32768 = 32768 := by
    have := next_newline_length unterminated_file hsize
    rwa [unterminated_file_length] at this
  refine ⟨unterminated_file_length, by decide, ?_, ?_, ?_, ?_⟩
  · rw [find_next_newline_eq_some unterminated_file 16384
      (by rw [unterminated_file_length]; omega), hf]
  · rw [aligned_region_zero unterminated_file 0 16384 (by rw [unterminated_file_length]; omega)
      (by omega) (by rw [unterminated_file_length]; omega), hf]
  · rw [aligned_region_succ unterminated_file 16384 32768 1
      (by rw [unterminated_file_length]; omega) (by omega)
      (by rw [unterminated_file_length]) (by omega) (by omega), hf, hl]
  · unfold unterminated_file
    rw [List.getElem?_append_right (by simp), List.getElem?_replicate]
    simp

/-! ## A first record longer than the span of worker 0 -/

theorem next_newline_first (pre tail : List Char) (e : Nat) (hpre : '\n' ∉ pre)
    (he : e ≤ pre.length) (hsize : (pre ++ '\n' :: tail).length < SIZE_MOD) :
    next_newline (pre ++ '\n' :: tail) e = pre.length := by
  have hat : (pre ++ '\n' :: tail)[pre.length]? = some '\n' := by
    rw [List.getElem?_append_right (le_refl _)]
    simp
  have hlen : (pre ++ '\n' :: tail).length = pre.length + tail.length + 1 := by
    simp; omega
  rcases next_newline_cases (pre ++ '\n' :: tail) e (by omega) hsize with
    ⟨_, c2⟩ | ⟨c1, c2, c3, c4⟩
  · exact absurd hat (c2 _ he)
  · rcases Nat.lt_trichotomy (next_newline (pre ++ '\n' :: tail) e) pre.length with
      hlt | heq | hgt
    · rw [List.getElem?_append_left hlt] at c3
      exact absurd (List.getElem?_mem c3) hpre
    · exact heq
    · exact absurd hat (c4 _ he hgt)

/-- C4 (fails on the code): for every well-formed file of 32768 bytes or more
whose first record is longer than the naive span of worker 0 of `k >= 2`
threads, worker 0 stops before the first record separator and `columns_` stays
0: the build with `k` threads divides by zero (no index), although its workers
merge the same offsets as the build with one thread, which returns an index
with `columns() == C`. -/
theorem first_record_beyond_worker_zero (delim : Char) (hd : delim ≠ '\n') (C : Nat)
    (r0 : List (List Char)) (rs : List (List (List Char)))
    (h : well_formed delim C (r0 :: rs) = true) (has_header : Bool) (skip num_threads : Nat)
    (hlen : (encode_file delim (r0 :: rs)).length < 2 ^ 31)
    (hoff : (r0 :: rs).length * C + 1 < 2 ^ 31)
    (hbig : 32768 ≤ (encode_file delim (r0 :: rs)).length)
    (hk1 : 2 ≤ num_threads) (hk2 : num_threads ≤ 2 ^ 31)
    (hlong : (encode_file delim (r0 :: rs)).length / num_threads <
      (encode_record delim r0).length) :
    index.index (encode_file delim (r0 :: rs)) delim has_header skip num_threads = none ∧
    ∃ vs, run_workers (encode_file delim (r0 :: rs)) delim
        (parallel_for_spans (encode_file delim (r0 :: rs)).length num_threads) 0 0 =
          some (vs, 0) ∧
      ∃ x, index.index (encode_file delim (r0 :: rs)) delim has_header skip 1 = some x ∧
        x.num_columns = C ∧ x.idx_ = vs.flatten := by
  have hsize : (encode_file delim (r0 :: rs)).length < SIZE_MOD := by rw [size_mod_eq]; omega
  have hwf := (well_formed_iff delim C (r0 :: rs)).mp h
  have h0 := hwf.2 r0 (by simp)
  have hne : r0 ≠ [] := by
    intro e0
    have := h0.1
    rw [e0] at this
    simp at this
    omega
  obtain ⟨pre, p1, p2, _⟩ := encode_record_first_newline delim hd r0 hne h0.2
  have hfile : encode_file delim (r0 :: rs) = pre ++ '\n' :: encode_file delim rs := by
    rw [encode_file_cons, p1]
    simp
  have he : (encode_file delim (r0 :: rs)).length / num_threads ≤ pre.length := by
    rw [p1] at hlong
    simp only [List.length_append, List.length_singleton] at hlong
    omega
  obtain ⟨rest, hrest⟩ := parallel_for_spans_head (encode_file delim (r0 :: rs)).length
    num_threads hk1
  have hcont := parallel_for_spans_contiguous (encode_file delim (r0 :: rs)).length
    num_threads (by omega)
  have hlen2 := parallel_for_spans_length (encode_file delim (r0 :: rs)).length num_threads
  rw [hrest] at hcont hlen2
  simp only [List.length_cons] at hlen2
  obtain ⟨vs, hw1, hw2⟩ := run_workers_zero (encode_file delim (r0 :: rs)) delim hlen _ rest
    (by omega) hcont
  have hcols : (index_region_loop delim 0
      ((encode_file delim (r0 :: rs)).take
        (next_newline (encode_file delim (r0 :: rs))
          ((encode_file delim (r0 :: rs)).length / num_threads))) 0 [0] 0).2 = 0 := by
    have hf := next_newline_first pre (encode_file delim rs)
      ((encode_file delim (r0 :: rs)).length / num_threads) p2 he (by rw [← hfile]; exact hsize)
    rw [← hfile] at hf
    rw [hf]
    have htake : (encode_file delim (r0 :: rs)).take pre.length = pre := by
      rw [hfile, List.take_left]
    rw [htake]
    exact index_region_loop_snd_no_newline delim 0 pre 0 [0] 0 p2
  rw [hcols] at hw1
  rw [← hrest] at hw1
  refine ⟨?_, vs, hw1, ?_⟩
  · unfold index.index
    have hnb : ¬ (encode_file delim (r0 :: rs)).length < 32768 := by omega
    simp only [hnb, if_false]
    exact build_eq_none_of_columns_zero _ delim has_header _ vs hw1
  · refine ⟨_, index_well_formed delim hd C r0 rs h has_header skip 1 hlen
      (by simpa using hoff) (le_refl _) (by omega) (Or.inr (Or.inl rfl)), rfl, ?_⟩
    rw [hw2, scan_offsets_encode_file delim C (r0 :: rs) h 0]

theorem long_record_file_eq :
    encode_file ',' [[List.replicate 32765 'a', ['b']]] = long_record_file := by
  simp only [encode_file, encode_record, long_record_file, List.map_cons, List.map_nil,
    List.flatten_cons, List.flatten_nil, List.append_nil, List.singleton_append]

theorem long_record_file_length : long_record_file.length = 32768 := by
  rw [long_record_file, List.length_append, List.length_replicate]
  rfl

theorem long_record_well_formed :
    well_formed ',' 2 [[List.replicate 32765 'a', ['b']]] = true := by
  rw [well_formed_iff]
  refine ⟨by omega, ?_⟩
  intro r hr
  simp only [List.mem_singleton] at hr
  subst hr
  refine ⟨rfl, ?_⟩
  intro f hf
  simp only [List.mem_cons, List.mem_singleton, List.not_mem_nil, or_false] at hf
  rw [clean_field_iff]
  rcases hf with hf | hf
  · subst hf
    intro b hb
    rw [List.eq_of_mem_replicate hb]
    decide
  · subst hf
    decide

theorem long_record_length :
    (encode_record ',' [List.replicate 32765 'a', ['b']]).length = 32768 := by
  rw [encode_record, List.length_append, List.length_replicate]
  rfl

/-- C4 on the file of 32768 bytes made of 32765 bytes `a`, then ",b\n": with
two threads the naive span of worker 0 ends at 16384, before the only record
separator at 32767. -/
theorem first_record_beyond_worker_zero_witness :
    encode_file ',' [[List.replicate 32765 'a', ['b']]] = long_record_file ∧
    long_record_file.length = 32768 ∧
    (index.index (encode_file ',' [[List.replicate 32765 'a', ['b']]]) ',' false 0 2 = none ∧
    ∃ vs, run_workers (encode_file ',' [[List.replicate 32765 'a', ['b']]]) ','
        (parallel_for_spans (encode_file ',' [[List.replicate 32765 'a', ['b']]]).length 2)
        0 0 = some (vs, 0) ∧
      ∃ x, index.index (encode_file ',' [[List.replicate 32765 'a', ['b']]]) ',' false 0 1 =
          some x ∧
        x.num_columns = 2 ∧ x.idx_ = vs.flatten) :=
  ⟨long_record_file_eq, long_record_file_length,
    first_record_beyond_worker_zero ',' (by decide) 2 [List.replicate 32765 'a', ['b']] []
      long_record_well_formed false 0 2
      (by rw [long_record_file_eq, long_record_file_length]; decide)
      (by decide)
      (by rw [long_record_file_eq, long_record_file_length])
      (by decide) (by decide)
      (by rw [long_record_file_eq, long_record_file_length, long_record_length]; decide)⟩

/-! ## Files whose first record fits in the span of worker 0 -/

/-- The workers on any file, ragged or not, whose first record separator lies
inside the naive span of worker 0: the column count is the number of fields of
the first record and the merged offsets are those of the whole file. -/
theorem workers_of_first_newline (pre tail : List Char) (delim : Char)
    (hpre : '\n' ∉ pre) (hlen : (pre ++ '\n' :: tail).length < 2 ^ 31)
    (e : Nat) (rest : List (Nat × Nat)) (hl : rest.length + 1 ≤ 2 ^ 31)
    (hc : contiguous 0 ((0, e) :: rest) (pre ++ '\n' :: tail).length = true)
    (hfit : pre.length + 1 ≤ e) :
    ∃ vs, run_workers (pre ++ '\n' :: tail) delim ((0, e) :: rest) 0 0 =
        some (vs, 1 + (scan_offsets delim pre 0).length) ∧
      vs.flatten = 0 :: scan_offsets delim (pre ++ '\n' :: tail) 0 := by
  have hsize : (pre ++ '\n' :: tail).length < SIZE_MOD := by rw [size_mod_eq]; omega
  have he : e ≤ (pre ++ '\n' :: tail).length := by
    have hc2 := hc
    simp only [contiguous, Bool.and_eq_true, decide_eq_true_eq] at hc2
    exact contiguous_le rest e _ hc2.2
  have hge := le_next_newline (pre ++ '\n' :: tail) e he hsize
  obtain ⟨vs, h1, h2⟩ := run_workers_zero (pre ++ '\n' :: tail) delim hlen e rest hl hc
  rw [take_past_first_newline pre tail _ (by omega),
    index_region_loop_snd_first_newline delim pre _ 0 [0] hpre (by simp)] at h1
  simp only [List.length_singleton] at h1
  exact ⟨vs, h1, h2⟩

/-- The index that `index::index` builds for any file of fewer than
`2 ^ 31 - 1` bytes whose first record fits in the naive span of worker 0. -/
theorem index_of_first_newline (pre tail : List Char) (delim : Char) (has_header : Bool)
    (skip num_threads : Nat) (hpre : '\n' ∉ pre)
    (hlen : (pre ++ '\n' :: tail).length + 1 < 2 ^ 31)
    (hk1 : 1 ≤ num_threads) (hk2 : num_threads ≤ 2 ^ 31)
    (hfit : (pre ++ '\n' :: tail).length < 32768 ∨ num_threads = 1 ∨
      pre.length + 1 ≤ (pre ++ '\n' :: tail).length / num_threads) :
    index.index (pre ++ '\n' :: tail) delim has_header skip num_threads =
      some {
        mmap_ := pre ++ '\n' :: tail
        idx_ := 0 :: scan_offsets delim (pre ++ '\n' :: tail) 0
        has_header_ := has_header
        columns_ := 1 + (scan_offsets delim pre 0).length
        rows_ :=
          if has_header then
            ((0 :: scan_offsets delim (pre ++ '\n' :: tail) 0).length /
              (1 + (scan_offsets delim pre 0).length) + SIZE_MOD - 1) % SIZE_MOD
          else
            (0 :: scan_offsets delim (pre ++ '\n' :: tail) 0).length /
              (1 + (scan_offsets delim pre 0).length) } := by
  obtain ⟨e, rest, h1, h2, h3, h4⟩ := index_eq_build (pre ++ '\n' :: tail) delim
    has_header skip num_threads (pre.length + 1) (by simp) hk1 hk2 hfit
  obtain ⟨vs, g1, g2⟩ := workers_of_first_newline pre tail delim hpre (by omega) e rest h2 h3 h4
  have hcount : vs.flatten.length < 2 ^ 31 := by
    rw [g2, List.length_cons]
    have := scan_offsets_length_le delim (pre ++ '\n' :: tail) 0
    omega
  rw [h1, build_of_workers _ delim has_header _ vs _ g1 hcount (by omega), g2]

/-- Thread-count independence, where it holds: when the first record of the
file (its bytes up to and including the first record separator) fits in the
naive span of worker 0, the index built with `k` threads is the index built
with one thread. -/
theorem index_thread_independent (pre tail : List Char) (delim : Char) (has_header : Bool)
    (skip k : Nat) (hpre : '\n' ∉ pre) (hlen : (pre ++ '\n' :: tail).length + 1 < 2 ^ 31)
    (hk1 : 1 ≤ k) (hk2 : k ≤ 2 ^ 31)
    (hfit : (pre ++ '\n' :: tail).length < 32768 ∨
      pre.length + 1 ≤ (pre ++ '\n' :: tail).length / k) :
    index.index (pre ++ '\n' :: tail) delim has_header skip k =
      index.index (pre ++ '\n' :: tail) delim has_header skip 1 := by
  rw [index_of_first_newline pre tail delim has_header skip k hpre hlen hk1 hk2
      (by rcases hfit with h | h; exact Or.inl h; exact Or.inr (Or.inr h)),
    index_of_first_newline pre tail delim has_header skip 1 hpre hlen (le_refl _) (by omega)
      (Or.inr (Or.inl rfl))]

/-- C6 (fails on the code): the file "a,b,c\nd\n" has three fields in its first
record and one in its second; the merged offset count is 5 and the column count
3, so `5 % 3 != 0`, and the build does not fail: it returns the index with
`rows() == 1`. -/
theorem ragged_file_builds :
    (index.index ragged_file ',' false 0 1).map
      (fun x => (x.idx_, x.num_columns, x.idx_.length % x.num_columns, x.num_rows)) =
      some ([0, 2, 4, 6, 8], 3, 2, 1) := by
  decide

/-- C6 (amended): the constructor performs no divisibility check. For every
file of fewer than `2 ^ 31 - 1` bytes that ends with a record separator and
whose first record fits in the naive span of worker 0, whether or not the later
records have as many fields as the first and whatever `len(idx) % columns()`
is, the build returns an index: `idx` holds
offset 0 and the offset after every delimiter and record separator,
`columns()` is the number of fields of the first record, and `rows()` is
`len(idx) / columns()` rounded down, minus 1 with a header. -/
theorem build_ignores_divisibility (pre tail : List Char) (delim : Char) (has_header : Bool)
    (skip num_threads : Nat) (hpre : '\n' ∉ pre)
    (hlen : (pre ++ '\n' :: tail).length + 1 < 2 ^ 31)
    (_hnl : (pre ++ '\n' :: tail).getLast? = some '\n')
    (hk1 : 1 ≤ num_threads) (hk2 : num_threads ≤ 2 ^ 31)
    (hfit : (pre ++ '\n' :: tail).length < 32768 ∨ num_threads = 1 ∨
      pre.length + 1 ≤ (pre ++ '\n' :: tail).length / num_threads) :
    ∃ x, index.index (pre ++ '\n' :: tail) delim has_header skip num_threads = some x ∧
      x.idx_ = 0 :: scan_offsets delim (pre ++ '\n' :: tail) 0 ∧
      x.num_columns = 1 + (scan_offsets delim pre 0).length ∧
      x.num_rows = x.idx_.length / x.num_columns - (if has_header then 1 else 0) := by
  refine ⟨_, index_of_first_newline pre tail delim has_header skip num_threads hpre hlen hk1 hk2
    hfit, rfl, rfl, ?_⟩
  simp only [index.num_rows, index.num_columns]
  have hsplit : scan_offsets delim (pre ++ '\n' :: tail) 0 =
      scan_offsets delim pre 0 ++ scan_offsets delim ('\n' :: tail) (0 + pre.length) :=
    scan_offsets_append delim pre _ 0
  have hle : 1 + (scan_offsets delim pre 0).length ≤
      (0 :: scan_offsets delim (pre ++ '\n' :: tail) 0).length := by
    rw [hsplit]
    simp only [List.length_cons, List.length_append]
    omega
  have hq : 1 ≤ (0 :: scan_offsets delim (pre ++ '\n' :: tail) 0).length /
      (1 + (scan_offsets delim pre 0).length) := Nat.div_pos hle (by omega)
  have hq2 : (0 :: scan_offsets delim (pre ++ '\n' :: tail) 0).length /
      (1 + (scan_offsets delim pre 0).length) ≤
      (0 :: scan_offsets delim (pre ++ '\n' :: tail) 0).length := Nat.div_le_self _ _
  have hL : (0 :: scan_offsets delim (pre ++ '\n' :: tail) 0).length < 2 ^ 31 := by
    rw [List.length_cons]
    have := scan_offsets_length_le delim (pre ++ '\n' :: tail) 0
    omega
  cases has_header
  · simp
  · simp only [if_true]
    have e1 : (0 :: scan_offsets delim (pre ++ '\n' :: tail) 0).length /
        (1 + (scan_offsets delim pre 0).length) + SIZE_MOD - 1 =
        (0 :: scan_offsets delim (pre ++ '\n' :: tail) 0).length /
        (1 + (scan_offsets delim pre 0).length) - 1 + SIZE_MOD := by omega
    rw [e1, Nat.add_mod_right]
    exact Nat.mod_eq_of_lt (by rw [size_mod_eq]; omega)

/-- C6 on the ragged file "a,b,c\nd\n", built with a header: the first record
is "a,b,c", `len(idx) == 5`, `columns() == 3`, `rows() == 5 / 3 - 1 == 0`. -/
theorem build_ignores_divisibility_witness :
    "a,b,c".toList ++ '\n' :: "d\n".toList = ragged_file ∧
    (index.index ("a,b,c".toList ++ '\n' :: "d\n".toList) ',' true 0 4).map
      (fun x => (x.idx_.length, x.num_columns, x.idx_.length % x.num_columns, x.num_rows)) =
      some (5, 3, 2, 0) ∧
    ∃ x, index.index ("a,b,c".toList ++ '\n' :: "d\n".toList) ',' true 0 4 = some x ∧
      x.idx_ = 0 :: scan_offsets ',' ("a,b,c".toList ++ '\n' :: "d\n".toList) 0 ∧
      x.num_columns = 1 + (scan_offsets ',' "a,b,c".toList 0).length ∧
      x.num_rows = x.idx_.length / x.num_columns - (if true then 1 else 0) :=
  ⟨by decide, by decide,
    build_ignores_divisibility "a,b,c".toList "d\n".toList ',' true 0 4 (by decide) (by decide)
      (by decide) (by decide) (by decide) (Or.inl (by decide))⟩

/-- In a well-formed file with at least two fields per record the merged offset
count `R * C + 1` is never divisible by the column count `C`. -/
theorem well_formed_remainder_one (delim : Char) (hd : delim ≠ '\n') (C : Nat)
    (hC : 2 ≤ C) (r0 : List (List Char)) (rs : List (List (List Char)))
    (h : well_formed delim C (r0 :: rs) = true) (has_header : Bool) (skip num_threads : Nat)
    (hlen : (encode_file delim (r0 :: rs)).length < 2 ^ 31)
    (hoff : (rs.length + 1) * C + 1 < 2 ^ 31)
    (hk1 : 1 ≤ num_threads) (hk2 : num_threads ≤ 2 ^ 31)
    (hfit : (encode_file delim (r0 :: rs)).length < 32768 ∨ num_threads = 1 ∨
      (encode_record delim r0).length ≤ (encode_file delim (r0 :: rs)).length / num_threads) :
    ∃ x, index.index (encode_file delim (r0 :: rs)) delim has_header skip num_threads = some x ∧
      x.num_columns = C ∧
      x.idx_.length = (r0 :: rs).length * C + 1 ∧
      x.idx_.length % x.num_columns = 1 := by
  refine ⟨_, rows_columns_well_formed delim hd C hC r0 rs h has_header skip num_threads hlen hoff
    hk1 hk2 hfit, rfl, ?_, ?_⟩
  · simpa using well_formed_offsets_length delim C r0 rs h
  · have hmod : ((rs.length + 1) * C + 1) % C = 1 := by
      rw [Nat.add_mod, Nat.mul_mod_left, Nat.zero_add, Nat.mod_mod]
      exact Nat.mod_eq_of_lt (by omega)
    simp only [index.num_columns]
    rw [well_formed_offsets_length delim C r0 rs h]
    exact hmod

/-! ## The `int` parameters of the lambda -/

/-- C10 (fails on the code): for every file of `2 ^ 31` bytes, the naive end
`2147483648` of the single span becomes `-2147483648` in the lambda's `int end`
and `18446744071562067968` when converted back to `size_t` for
`find_next_newline`: it lies beyond `file_size`, the count
`mmap_.size() - start` wraps around to `4294967296`, `memchr` starts outside the
mapping (undefined), and no index is built. -/
theorem int_parameters_wrap (mmap_ : List Char) (h : mmap_.length = 2 ^ 31) :
    parallel_for_spans mmap_.length 1 = [(0, 2147483648)] ∧
    to_int 2147483648 = -2147483648 ∧
    to_size_t (to_int 2147483648) = 18446744071562067968 ∧
    mmap_.length < to_size_t (to_int 2147483648) ∧
    memchr_count mmap_.length (to_size_t (to_int 2147483648)) = 4294967296 ∧
    find_next_newline mmap_ (to_size_t (to_int 2147483648)) = none ∧
    aligned_region mmap_ 0 2147483648 0 = none ∧
    ∀ delim has_header skip, index.index mmap_ delim has_header skip 1 = none := by
  have h1 : to_int 2147483648 = -2147483648 := by decide
  have h2 : to_size_t (-2147483648) = 18446744071562067968 := by decide
  have h4 : to_int 0 = 0 := by decide
  have hnone : find_next_newline mmap_ 18446744071562067968 = none :=
    find_next_newline_eq_none mmap_ _ (by rw [h]; decide)
  have hal : aligned_region mmap_ 0 2147483648 0 = none := by
    unfold aligned_region
    simp only [h1, h2, h4, if_true, hnone, Option.map_none']
  have hspans : parallel_for_spans mmap_.length 1 = [(0, 2147483648)] := by
    rw [parallel_for_spans_one, h]
    norm_num
  refine ⟨hspans, h1, ?_, ?_, ?_, ?_, hal, ?_⟩
  · rw [h1, h2]
  · rw [h1, h2, h]; decide
  · rw [h1, h2, h]; decide
  · rw [h1, h2]; exact hnone
  · intro delim has_header skip
    unfold index.index
    have hbig : ¬ mmap_.length < 32768 := by rw [h]; decide
    simp only [hbig, if_false, hspans]
    unfold index.build
    simp only [run_workers, worker, hal, Option.none_bind]

/-- C10 on the file of `2 ^ 31` bytes `a`. -/
theorem int_parameters_wrap_witness :
    (List.replicate (2 ^ 31) 'a').length = 2 ^ 31 ∧
    (parallel_for_spans (List.replicate (2 ^ 31) 'a').length 1 = [(0, 2147483648)] ∧
    to_int 2147483648 = -2147483648 ∧
    to_size_t (to_int 2147483648) = 18446744071562067968 ∧
    (List.replicate (2 ^ 31) 'a').length < to_size_t (to_int 2147483648) ∧
    memchr_count (List.replicate (2 ^ 31) 'a').length (to_size_t (to_int 2147483648)) =
      4294967296 ∧
    find_next_newline (List.replicate (2 ^ 31) 'a') (to_size_t (to_int 2147483648)) = none ∧
    aligned_region (List.replicate (2 ^ 31) 'a') 0 2147483648 0 = none ∧
    ∀ delim has_header skip,
      index.index (List.replicate (2 ^ 31) 'a') delim has_header skip 1 = none) :=
  ⟨List.length_replicate _ _,
    int_parameters_wrap (List.replicate (2 ^ 31) 'a') (List.length_replicate _ _)⟩

/-! ## The concrete scenarios of the spec -/

/-- The spec's scenario: "a,b,c\n1,2,3\n4,5,6\n" with delimiter `,` and a
header gives `columns() == 3`, `rows() == 2`, `get(0,0) == "1"` and
`get(1,2) == "6"`; without a header `rows() == 3` and `get(0,0) == "a"`. -/
theorem get_scenario :
    index.index scenario_file ',' true 0 4 = some scenario_index ∧
    scenario_index.num_columns = 3 ∧ scenario_index.num_rows = 2 ∧
    (scenario_index.get 0 0).map (cell.bytes scenario_file) = some "1".toList ∧
    (scenario_index.get 1 2).map (cell.bytes scenario_file) = some "6".toList ∧
    (index.index scenario_file ',' false 0 4).map index.num_rows = some 3 ∧
    (index.index scenario_file ',' false 0 4).map
      (fun x => (x.get 0 0).map (cell.bytes scenario_file)) = some (some "a".toList) := by
  decide

/-- The round trip of `get` on the spec's scenario: `get(1, 2)` with a header
is field 2 of record 2, "6". -/
theorem get_round_trip_scenario :
    ∃ f c, (([["a".toList, "b".toList, "c".toList], ["1".toList, "2".toList, "3".toList],
        ["4".toList, "5".toList, "6".toList]] : List (List (List Char)))[1 +
          (if true then 1 else 0)]?).bind (fun r => r[2]?) = some f ∧
      scenario_index.get 1 2 = some c ∧
      c.bytes (encode_file ',' [["a".toList, "b".toList, "c".toList],
        ["1".toList, "2".toList, "3".toList], ["4".toList, "5".toList, "6".toList]]) = f ∧
      '\n' ∉ f ∧ ',' ∉ f :=
  get_round_trip ',' (by decide) 3 (by decide) ["a".toList, "b".toList, "c".toList]
    [["1".toList, "2".toList, "3".toList], ["4".toList, "5".toList, "6".toList]] (by decide)
    true 0 4 (by decide) (by decide) (by decide) (Or.inl (by decide)) scenario_index (by decide)
    1 2 (by decide) (by decide)

end vroom
